import Mathlib

/-!
# cert-manage: the darwin trust-store backend

A shallow embedding of `store/darwin.go` and `pkg/cmd/backup.go`.

* Go slices are lists; a `nil` slice and an empty slice are both `[]`.
* Go pointers are `Option`; dereferencing `none` and indexing a slice out of
  range are run-time panics, which the embedding makes explicit
  (`Option` for pure code, `Outcome.panic` for code that touches the world).
* Go `(value, error)` results are pairs whose second component is
  `Option Error`.
* Bytes are natural numbers below 256.
* The operating system (file system, the `/usr/bin/security` utility, the
  clock, the current user) is an explicit `World` value threaded through the
  code, together with an `Env` of answers the outside world gives.
-/

set_option autoImplicit false
set_option linter.unusedVariables false
set_option maxRecDepth 100000

/-! ## Library functions used by the source -/

namespace sha1

/-- Rotate a 32-bit word left by `n` bits. -/
def rotl (n x : Nat) : Nat := ((x <<< n) ||| (x >>> (32 - n))) % 4294967296

/-- Big-endian 32-bit word made of four bytes. -/
def be32 (a b c d : Nat) : Nat := a * 16777216 + b * 65536 + c * 256 + d

/-- Split a byte string into big-endian 32-bit words. -/
def words : List Nat → List Nat
  | a :: b :: c :: d :: rest => be32 a b c d :: words rest
  | _ => []

/-- The message length in bits as eight big-endian bytes. -/
def lenBytes (bits : Nat) : List Nat :=
  (List.range 8).reverse.map (fun i => (bits >>> (8 * i)) % 256)

/-- SHA-1 padding: a 0x80 byte, zeros up to 56 mod 64, then the bit length. -/
def pad (msg : List Nat) : List Nat :=
  msg ++ [128] ++ List.replicate ((119 - msg.length % 64) % 64) 0 ++ lenBytes (8 * msg.length)

/-- Extend the message schedule by `n` words. -/
def extend : Nat → List Nat → List Nat
  | 0, w => w
  | n + 1, w =>
    let k := w.length
    extend n (w ++ [rotl 1 (w.getD (k - 3) 0 ^^^ w.getD (k - 8) 0 ^^^ w.getD (k - 14) 0
      ^^^ w.getD (k - 16) 0)])

/-- The five chaining words of SHA-1. -/
structure St where
  a : Nat
  b : Nat
  c : Nat
  d : Nat
  e : Nat
deriving DecidableEq, Repr

/-- One of the eighty rounds, `t` the round number and `wt` the schedule word. -/
def round (s : St) (t : Nat) (wt : Nat) : St :=
  let f := if t < 20 then (s.b &&& s.c) ||| ((s.b ^^^ 4294967295) &&& s.d)
           else if t < 40 then s.b ^^^ s.c ^^^ s.d
           else if t < 60 then (s.b &&& s.c) ||| (s.b &&& s.d) ||| (s.c &&& s.d)
           else s.b ^^^ s.c ^^^ s.d
  let k := if t < 20 then 1518500249 else if t < 40 then 1859775393
           else if t < 60 then 2400959708 else 3395469782
  let tmp := (rotl 5 s.a + f + s.e + k + wt) % 4294967296
  ⟨tmp, s.a, rotl 30 s.b, s.c, s.d⟩

/-- Run the rounds over the schedule words. -/
def rounds : List Nat → Nat → St → St
  | [], _, s => s
  | w :: ws, t, s => rounds ws (t + 1) (round s t w)

/-- Compress one 64-byte block into the chaining value. -/
def block (h : St) (blk : List Nat) : St :=
  let s := rounds (extend 64 (words blk)) 0 h
  ⟨(h.a + s.a) % 4294967296, (h.b + s.b) % 4294967296, (h.c + s.c) % 4294967296,
   (h.d + s.d) % 4294967296, (h.e + s.e) % 4294967296⟩

/-- Compress `n` consecutive blocks of the padded message. -/
def blocks : Nat → St → List Nat → St
  | 0, h, _ => h
  | n + 1, h, m => blocks n (block h (m.take 64)) (m.drop 64)

/-- The four big-endian bytes of a 32-bit word. -/
def word4 (x : Nat) : List Nat :=
  [(x >>> 24) % 256, (x >>> 16) % 256, (x >>> 8) % 256, x % 256]

/-- Go `crypto/sha1`: the 20-byte SHA-1 digest of a byte string. -/
def Sum (msg : List Nat) : List Nat :=
  let m := pad msg
  let h := blocks (m.length / 64) ⟨1732584193, 4023233417, 2562383102, 271733878, 3285377520⟩ m
  word4 h.a ++ word4 h.b ++ word4 h.c ++ word4 h.d ++ word4 h.e

end sha1

namespace hex

/-- The lowercase hexadecimal digit of a nibble. -/
def digit (n : Nat) : Char := "0123456789abcdef".data.getD n '0'

/-- Go `encoding/hex.EncodeToString`: two lowercase digits per byte. -/
def EncodeToString (bs : List Nat) : String :=
  String.mk (bs.flatMap (fun b => [digit (b / 16), digit (b % 16)]))

end hex

namespace base64

/-- The character of a 6-bit value in the standard alphabet. -/
def enc (n : Nat) : Char :=
  "ABCDEFGHIJKLMNOPQRSTUVWXYZabcdefghijklmnopqrstuvwxyz0123456789+/".data.getD n 'A'

/-- Encode three bytes at a time, padding the last group with `=`. -/
def encodeChars : List Nat → List Char
  | a :: b :: c :: rest =>
    enc (a / 4) :: enc (a % 4 * 16 + b / 16) :: enc (b % 16 * 4 + c / 64) :: enc (c % 64)
      :: encodeChars rest
  | [a, b] => [enc (a / 4), enc (a % 4 * 16 + b / 16), enc (b % 16 * 4), '=']
  | [a] => [enc (a / 4), enc (a % 4 * 16), '=', '=']
  | [] => []

/-- Go `base64.StdEncoding.EncodeToString`. -/
def EncodeToString (bs : List Nat) : String := String.mk (encodeChars bs)

end base64

namespace strings

/-- Uppercase one character (the ASCII letters, which is all a hex fingerprint holds). -/
def upperChar (c : Char) : Char :=
  if 97 ≤ c.toNat ∧ c.toNat ≤ 122 then Char.ofNat (c.toNat - 32) else c

/-- Go `strings.ToUpper`, on ASCII text. -/
def ToUpper (s : String) : String := String.mk (s.data.map upperChar)

/-- Case-insensitive equality of two strings (Go `strings.EqualFold` on ASCII text). -/
def EqualFold (a b : String) : Bool := ToUpper a == ToUpper b

end strings

/-! ### `time.Time` and `Time.Format` -/

/-- Go `time.Time`, to the second: the instant as seconds since the Unix epoch,
and the offset (seconds east of UTC) of the location the value carries. -/
structure Time where
  unix : Int
  offset : Int
deriving DecidableEq, Repr

namespace Time

/-- Go `Time.UTC`: the same instant with the location set to UTC. -/
def UTC (t : Time) : Time := { t with offset := 0 }

/-- Go `Time.Unix`. -/
def Unix (t : Time) : Int := t.unix

/-- Seconds since the epoch of the wall clock shown in the location of `t`. -/
def wall (t : Time) : Int := t.unix + t.offset

/-- Civil date (year, month, day) of a day number counted from 1970-01-01. -/
def civil (days : Int) : Int × Int × Int :=
  let z := days + 719468
  let era := z / 146097
  let doe := z - era * 146097
  let yoe := (doe - doe / 1460 + doe / 36524 - doe / 146096) / 365
  let doy := doe - (365 * yoe + yoe / 4 - yoe / 100)
  let mp := (5 * doy + 2) / 153
  let d := doy - (153 * mp + 2) / 5 + 1
  let m := if mp < 10 then mp + 3 else mp - 9
  let y := yoe + era * 400 + (if m ≤ 2 then 1 else 0)
  (y, m, d)

/-- Decimal digits of `n`, zero-padded on the left to `width`. -/
def padNat (width n : Nat) : List Char :=
  let ds := Nat.toDigits 10 n
  List.replicate (width - ds.length) '0' ++ ds

/-- Decimal digits of an integer, zero-padded to `width`, with a sign if negative. -/
def padInt (width : Nat) (n : Int) : List Char :=
  if n < 0 then '-' :: padNat width n.natAbs else padNat width n.natAbs

/-- The layout interpreter of Go `Time.Format`, for the reference-time chunks
`2006`, `01`, `02`, `15`, `04`, `05`; every other character is copied. A `Z`
that is not followed by `07` is such a literal character. -/
def formatChars (t : Time) : List Char → List Char
  | '2' :: '0' :: '0' :: '6' :: rest => padInt 4 (civil (t.wall / 86400)).1 ++ formatChars t rest
  | '0' :: '1' :: rest => padInt 2 (civil (t.wall / 86400)).2.1 ++ formatChars t rest
  | '0' :: '2' :: rest => padInt 2 (civil (t.wall / 86400)).2.2 ++ formatChars t rest
  | '1' :: '5' :: rest => padInt 2 (t.wall % 86400 / 3600) ++ formatChars t rest
  | '0' :: '4' :: rest => padInt 2 (t.wall % 3600 / 60) ++ formatChars t rest
  | '0' :: '5' :: rest => padInt 2 (t.wall % 60) ++ formatChars t rest
  | c :: rest => c :: formatChars t rest
  | [] => []

/-- Go `Time.Format`: the wall clock of `t`, in the location `t` carries. -/
def Format (t : Time) (layout : String) : String := String.mk (formatChars t layout.data)

end Time

namespace big

/-- Big-endian base-256 digits of `n`, most significant first, onto `acc`. -/
def bytesAux : Nat → Nat → List Nat → List Nat
  | 0, _, acc => acc
  | fuel + 1, n, acc => if n = 0 then acc else bytesAux fuel (n / 256) (n % 256 :: acc)

/-- Go `(*big.Int).Bytes`: the absolute value as a big-endian byte slice. -/
def Bytes (x : Int) : List Nat := bytesAux x.natAbs x.natAbs []

end big

/-! ## Data model -/

/-- Go `error` values, identified by their message. -/
abbrev Error := String

namespace pkix

/-- One attribute of a distinguished name: object identifier and value. -/
structure AttributeTypeAndValue where
  Type_ : List Nat
  Value : String
deriving DecidableEq, Repr

/-- Go `pkix.Name`. -/
structure Name where
  Country : List String
  Organization : List String
  OrganizationalUnit : List String
  Locality : List String
  Province : List String
  StreetAddress : List String
  PostalCode : List String
  SerialNumber : String
  CommonName : String
  Names : List AttributeTypeAndValue
  ExtraNames : List AttributeTypeAndValue
deriving DecidableEq, Repr

end pkix

namespace x509

/-- Go `x509.Certificate`, with the fields this package reads. -/
structure Certificate where
  Raw : List Nat
  Signature : List Nat
  Issuer : pkix.Name
  SerialNumber : Int
deriving DecidableEq, Repr

end x509

open x509 (Certificate)

/-- The layout of plist dates (`plistModDateFormat`). -/
def plistModDateFormat : String := "2006-01-02T15:04:05Z"

/-- The keychains `List` reads (`systemDirs`). -/
def systemDirs : List String :=
  ["/System/Library/Keychains/SystemRootCertificates.keychain",
   "/Library/Keychains/System.keychain"]

/-- Modelled from the spec: `_x509.GetHexSHA1Fingerprint` (package `tools/_x509`)
is the hex-encoded hash of a certificate's signature bytes, not of the whole
encoded certificate. -/
def GetHexSHA1Fingerprint (cert : Certificate) : String :=
  hex.EncodeToString (sha1.Sum cert.Signature)

/-- The `trustItem` struct: one entry of a trust-policy plist. -/
structure trustItem where
  sha1Fingerprint : String
  issuerName : pkix.Name
  modDate : Time
  serialNumber : List Nat
  kSecTrustSettingsResult : Int
deriving DecidableEq, Repr

/-- The `trustItems` slice type. -/
abbrev trustItems := List trustItem

/-- The plist `<key>` element. -/
structure chiKey where
  Text : String
deriving DecidableEq, Repr

/-- The plist `<data>` element. -/
structure chiData where
  Text : String
deriving DecidableEq, Repr

/-- The plist `<date>` element. -/
structure chiDate where
  Text : String
deriving DecidableEq, Repr

/-- The plist `<dict>` element: a nested dictionary with its key, data and date
children, each a slice of pointers. -/
inductive chiDict where
  | mk (ChiDict : Option chiDict) (ChiKey : List (Option chiKey))
      (ChiData : List (Option chiData)) (ChiDate : List (Option chiDate))

/-- The plist document. -/
structure plist where
  ChiDict : Option chiDict

namespace chiDict

/-- Field `ChiDict`. -/
def sub : chiDict → Option chiDict
  | mk d _ _ _ => d

/-- Field `ChiKey`. -/
def keys : chiDict → List (Option chiKey)
  | mk _ k _ _ => k

/-- Field `ChiData`. -/
def data : chiDict → List (Option chiData)
  | mk _ _ d _ => d

/-- Field `ChiDate`. -/
def dates : chiDict → List (Option chiDate)
  | mk _ _ _ d => d

end chiDict

namespace plist

/-- The keys of the trust list: `p.ChiDict.ChiDict.ChiKey`. -/
def trustKeys (p : plist) : Option (List (Option chiKey)) :=
  (p.ChiDict.bind chiDict.sub).map chiDict.keys

/-- The dates of the trust list: `p.ChiDict.ChiDict.ChiDict.ChiDate`. -/
def trustDates (p : plist) : Option (List (Option chiDate)) :=
  ((p.ChiDict.bind chiDict.sub).bind chiDict.sub).map chiDict.dates

/-- The data elements of the trust list: `p.ChiDict.ChiDict.ChiDict.ChiData`. -/
def trustData (p : plist) : Option (List (Option chiData)) :=
  ((p.ChiDict.bind chiDict.sub).bind chiDict.sub).map chiDict.data

end plist

/-! ## Pure code of `store/darwin.go` -/

/-- Go slice assignment `xs[i] = v`: a panic (`none`) when `i` is out of range. -/
def setIdx {α : Type} (xs : List α) (i : Nat) (v : α) : Option (List α) :=
  if i < xs.length then some (xs.set i v) else none

/-- The scan of `trustItems.contains`: `fp == t[i].sha1Fingerprint` for some `i`. -/
def containsLoop (fp : String) : trustItems → Bool
  | [] => false
  | e :: rest => if fp = e.sha1Fingerprint then true else containsLoop fp rest

/-- The method `trustItems.contains`: a nil certificate is reported as contained. -/
def trustItems.contains (t : trustItems) (cert : Option Certificate) : Bool :=
  match cert with
  | none => true
  | some c => containsLoop (GetHexSHA1Fingerprint c) t

/-- The three slices `toPlist` fills in: keys, dates and data. -/
structure plistSlices where
  keys : List (Option chiKey)
  dates : List (Option chiDate)
  data : List (Option chiData)
deriving DecidableEq, Repr

/-- The body of the loop of `toPlist` at loop variable `i`. The parameter
`marshal` stands for `asn1.Marshal` applied to the issuer's RDN sequence (the
bytes it returns; the source discards its error). -/
def toPlistBody (marshal : pkix.Name → List Nat) (t : trustItems) (i : Nat)
    (s : plistSlices) : Option plistSlices := do
  let e ← t[i / 2]?
  let keys ← setIdx s.keys (i / 2) (some ⟨strings.ToUpper e.sha1Fingerprint⟩)
  let data ← setIdx s.data (i / 2) (some ⟨base64.EncodeToString (marshal e.issuerName)⟩)
  let dates ← setIdx s.dates (i / 2) (some ⟨e.modDate.Format plistModDateFormat⟩)
  let data ← setIdx data i (some ⟨base64.EncodeToString e.serialNumber⟩)
  pure ⟨keys, dates, data⟩

/-- The loop `for i := 0; i < max; i += 2` of `toPlist`, with `fuel` bounding
the number of iterations; `none` is a panic (or fuel that ran out). -/
def toPlistLoop (marshal : pkix.Name → List Nat) (t : trustItems) (max : Nat) :
    Nat → Nat → plistSlices → Option plistSlices
  | 0, i, s => if i < max then none else some s
  | fuel + 1, i, s =>
    if i < max then (toPlistBody marshal t i s).bind (toPlistLoop marshal t max fuel (i + 2))
    else some s

/-- The slices built by `toPlist` before they are stored in the document. -/
def toPlistSlices (marshal : pkix.Name → List Nat) (t : trustItems) : Option plistSlices :=
  toPlistLoop marshal t (t.length * 2) (t.length * 2) 0
    ⟨List.replicate t.length none, List.replicate t.length none,
     List.replicate (t.length * 2) none⟩

/-- The document `toPlist` returns around the slices it built: the key
`trustList` at the first level, the keys at the second, the data and the dates
at the third. -/
def plistOf (s : plistSlices) : plist :=
  ⟨some (chiDict.mk
    (some (chiDict.mk (some (chiDict.mk none [] s.data s.dates)) s.keys [] []))
    [some ⟨"trustList"⟩] [] [])⟩

/-- The method `trustItems.toPlist`; `none` is a panic. -/
def trustItems.toPlist (marshal : pkix.Name → List Nat) (t : trustItems) : Option plist :=
  (toPlistSlices marshal t).map plistOf

/-- The function `trustItemFromCertificate`, given the value `time.Now()` returned. -/
def trustItemFromCertificate (now : Time) (cert : Certificate) : trustItem :=
  { sha1Fingerprint := GetHexSHA1Fingerprint cert
    issuerName := cert.Issuer
    modDate := now
    serialNumber := big.Bytes cert.SerialNumber
    kSecTrustSettingsResult := 0 }

/-- The inner loop of the dedup in `readInstalledCerts`: the final value of
`add`, or `none` for the nil dereference `res[i].Signature`. On the signatures
of parsed certificates, which are non-nil byte slices, `reflect.DeepEqual` is
equality of the bytes. -/
def dedupAdd (c : Certificate) : List (Option Certificate) → Option Bool
  | [] => some true
  | none :: _ => none
  | some r :: rest => if c.Signature = r.Signature then some false else dedupAdd c rest

/-- The dedup loop of `readInstalledCerts` over the parsed certificates `cs`,
starting from the accumulated `res`; `none` is a panic. -/
def dedupLoop : List (Option Certificate) → List (Option Certificate) →
    Option (List (Option Certificate))
  | [], res => some res
  | none :: cs, res => dedupLoop cs res
  | some c :: cs, res =>
    match dedupAdd c res with
    | none => none
    | some add => dedupLoop cs (if add then res ++ [some c] else res)

/-- The loop of `List` that keeps the installed certificates the policy contains. -/
def keptLoop (t : trustItems) : List (Option Certificate) → List (Option Certificate) →
    List (Option Certificate)
  | [], kept => kept
  | c :: rest, kept =>
    if c = none then keptLoop t rest kept
    else if t.contains c then keptLoop t rest (kept ++ [c])
    else keptLoop t rest kept

/-! ## The outside world -/

/-- The state the code can observe and change: the files on disk (path and
content), the live trust policy of the operating system, every external
command run so far (oldest first), the lines printed so far, and the number of
times the clock was read. -/
structure World where
  files : List (String × String)
  policy : String
  cmds : List (List String)
  stdout : List String
  clock : Nat
deriving DecidableEq, Repr

namespace World

/-- The content of the file at `path`, if it exists. -/
def read? (w : World) (path : String) : Option String := w.files.lookup path

/-- The content of the file at `path`, empty if it does not exist. -/
def read (w : World) (path : String) : String := (w.read? path).getD ""

/-- Create or overwrite the file at `path`. -/
def write (w : World) (path content : String) : World :=
  { w with files := (path, content) :: w.files.filter (fun f => f.1 ≠ path) }

/-- Delete the file at `path`. -/
def remove (w : World) (path : String) : World :=
  { w with files := w.files.filter (fun f => f.1 ≠ path) }

/-- Whether a file exists at `path`. -/
def isFile (w : World) (path : String) : Bool := (w.read? path).isSome

end World

/-- How a Go function ends: it returns a value, or it panics; either way the
world is left in some state. -/
inductive Outcome (α : Type) where
  | ret (a : α) (w : World)
  | panic (w : World)
deriving DecidableEq, Repr

namespace Outcome

/-- The world a call leaves behind. -/
def world {α : Type} : Outcome α → World
  | ret _ w => w
  | panic w => w

/-- The returned value, if the call returned. -/
def value? {α : Type} : Outcome α → Option α
  | ret a _ => some a
  | panic _ => none

end Outcome

/-- An open file (`*os.File`); the code only uses its name. -/
structure File where
  name : String
deriving DecidableEq, Repr

/-- The answers of everything outside this package: the operating system, the
native utility, and the helpers of this repository whose code lies in other
packages (`tools/pem`, `tools/file`, the plist parser and writer). -/
structure Env where
  /-- The home directory of `user.Current()`, or its error. -/
  homeDir : Except Error String
  /-- `filepath.Join` of two elements. -/
  join : String → String → String
  /-- `ioutil.ReadDir`: the names of the files in a directory. -/
  readDir : String → World → Except Error (List String)
  /-- The order by which `file.SortFileInfos` sorts. -/
  less : String → String → Bool
  /-- `ioutil.TempFile`: the name of the file it creates, or its error. -/
  tempName : String → String → World → Except Error String
  /-- `exec.Command(argv...).Output()`: the standard output and the error. -/
  run : List String → World → List Nat × Option Error
  /-- `pem.Parse`. -/
  pemParse : List Nat → List (Option Certificate) × Option Error
  /-- `parsePlist`, from the content of the file read. -/
  parsePlist : String → plist × Option Error
  /-- `plist.convertToTrustItems`. -/
  convertToTrustItems : plist → trustItems
  /-- `time.Now()` at the n-th reading of the clock. -/
  now : Nat → Time
  /-- `os.MkdirAll`. -/
  mkdirAll : String → World → Option Error
  /-- Whether `file.CopyFile` fails. -/
  copyErr : String → String → World → Option Error
  /-- `asn1.Marshal` of the RDN sequence of a name (the bytes returned). -/
  marshal : pkix.Name → List Nat
  /-- The XML text of a plist document. -/
  toXml : plist → String
  /-- Whether writing the XML file fails. -/
  writeErr : String → World → Option Error
  /-- The flag `debug` (GODEBUG contains x509roots=1). -/
  debug : Bool

/-- Modelled from the spec: the native trust utility (section 6). A
trust-settings export writes the live policy to the given file, a
trust-settings import makes the given file the live policy, and listing
certificates changes nothing. -/
def nativeEffect (argv : List String) (w : World) : World :=
  match argv with
  | "/usr/bin/security" :: "trust-settings-export" :: "-s" :: f :: _ => w.write f w.policy
  | ["/usr/bin/security", "trust-settings-import", "-d", f] =>
    match w.read? f with
    | some c => { w with policy := c }
    | none => w
  | _ => w

/-- Go `exec.Command(name, args...).Output()`: the command is recorded, and if
it succeeds its effect takes place. -/
def execOutput (env : Env) (name : String) (args : List String) (w : World) :
    (List Nat × Option Error) × World :=
  let r := env.run (name :: args) w
  let w1 := { w with cmds := w.cmds ++ [name :: args] }
  (r, if r.2 = none then nativeEffect (name :: args) w1 else w1)

/-- Whether the native trust-settings import is the command `argv`. -/
def isImport (argv : List String) : Bool :=
  match argv with
  | "/usr/bin/security" :: "trust-settings-import" :: _ => true
  | _ => false

/-- Go `fmt.Println` of one string. -/
def Println (line : String) (w : World) : World := { w with stdout := w.stdout ++ [line] }

namespace time

/-- Go `time.Now()`. -/
def Now (env : Env) (w : World) : Time × World :=
  (env.now w.clock, { w with clock := w.clock + 1 })

end time

namespace os

/-- Go `os.Remove`; the source discards its error. -/
def Remove (name : String) (w : World) : World := w.remove name

end os

namespace ioutil

/-- Go `ioutil.TempFile`: creates an empty file and returns it opened. -/
def TempFile (env : Env) (dir pattern : String) (w : World) : Except Error File × World :=
  match env.tempName dir pattern w with
  | .error e => (.error e, w)
  | .ok n => (.ok ⟨n⟩, w.write n "")

end ioutil

namespace file

/-- Modelled from the spec: `file.Exists` (package `tools/file`) tells whether
the path exists on disk. -/
def Exists (w : World) (path : String) : Bool := w.isFile path

/-- Modelled from the spec: `file.SortFileInfos` (package `tools/file`) orders
the snapshot files, the most recent last. -/
def SortFileInfos (less : String → String → Bool) (fis : List String) : List String :=
  fis.insertionSort (fun a b => less a b = true)

/-- Modelled from the spec: `file.CopyFile` (package `tools/file`) copies the
content of `src` to `dst`, or fails. -/
def CopyFile (env : Env) (src dst : String) (w : World) : Option Error × World :=
  match env.copyErr src dst w with
  | some e => (some e, w)
  | none => (none, w.write dst (w.read src))

end file

/-- Modelled from the spec: `plist.toXmlFile` (its code is in another file of
package `store`) writes the XML text of the document to the named file. -/
def plist.toXmlFile (env : Env) (p : plist) (name : String) (w : World) : Option Error × World :=
  match env.writeErr name w with
  | some e => (some e, w)
  | none => (none, w.write name (env.toXml p))

/-- The interface `whitelist.Whitelist`. -/
structure Whitelist where
  Matches : Option Certificate → Bool

/-- The interface `Store`, with the methods this development reads. -/
structure Store where
  Backup : World → Outcome (Option Error)

/-! ## The operations of `store/darwin.go` -/

/-- The function `getCertManageDir`. -/
def getCertManageDir (env : Env) : String × Option Error :=
  match env.homeDir with
  | .error e => ("", some e)
  | .ok home => (env.join home "/Library/cert-manage", none)

/-- The function `getLatestBackupFile`. -/
def getLatestBackupFile (env : Env) (w : World) : String × Option Error :=
  match getCertManageDir env with
  | (_, some e) => ("", some e)
  | (dir, none) =>
    match env.readDir dir w with
    | .error e => ("", some e)
    | .ok fis =>
      if h : fis.length = 0 then ("", none)
      else
        let sorted := file.SortFileInfos env.less fis
        let latest := sorted.getLast (by
          intro hs
          have hl := List.length_insertionSort (fun a b => env.less a b = true) fis
          simp only [sorted, file.SortFileInfos] at hs
          rw [hs] at hl
          exact h hl.symm)
        (env.join dir latest, none)

/-- The function `trustSettingsExport`. -/
def trustSettingsExport (env : Env) (args : List String) (w : World) :
    (Option File × Option Error) × World :=
  match ioutil.TempFile env "" "trust-settings" w with
  | (.error e, w1) => ((none, some e), w1)
  | (.ok fd, w1) =>
    let args := ["trust-settings-export", "-s", fd.name] ++ args
    match execOutput env "/usr/bin/security" args w1 with
    | ((_, some e), w2) => ((none, some e), w2)
    | ((_, none), w2) => ((some fd, none), w2)

/-- The body of `Backup` after the `defer` statement. -/
def backupBody (env : Env) (fd : File) (err : Option Error) (w : World) : Option Error × World :=
  match err with
  | some e => (some e, w)
  | none =>
    match getCertManageDir env with
    | (_, some e) => (some e, w)
    | (outDir, none) =>
      let (now, w1) := time.Now env w
      let filename := "trust-backup-" ++ toString now.Unix ++ ".xml"
      let out := env.join outDir filename
      match env.mkdirAll outDir w1 with
      | some e => (some e, w1)
      | none => file.CopyFile env fd.name out w1

/-- The method `darwinStore.Backup`. The statement `defer os.Remove(fd.Name())`
evaluates `fd.Name()` at once, which panics on a nil `fd`; otherwise the
removal runs when the body has returned. -/
def darwinStore.Backup (env : Env) (w : World) : Outcome (Option Error) :=
  match trustSettingsExport env [] w with
  | ((none, _), w1) => .panic w1
  | ((some fd, err), w1) =>
    let (r, w2) := backupBody env fd err w1
    .ret r (os.Remove fd.name w2)

/-- The function `readInstalledCerts`. -/
def readInstalledCerts (env : Env) (paths : List String) (w : World) :
    Outcome (List (Option Certificate) × Option Error) :=
  let args := ["find-certificate", "-a", "-p"] ++ paths
  match execOutput env "/usr/bin/security" args w with
  | ((_, some e), w1) => .ret ([], some e) w1
  | ((b, none), w1) =>
    match env.pemParse b with
    | (_, some e) => .ret ([], some e) w1
    | (cs, none) =>
      match dedupLoop cs [] with
      | none => .panic w1
      | some res => .ret (res, none) w1

/-- The function `getCertsWithTrustPolicy`; the `defer` is as in `Backup`. -/
def getCertsWithTrustPolicy (env : Env) (w : World) : Outcome (trustItems × Option Error) :=
  match trustSettingsExport env [] w with
  | ((none, _), w1) => .panic w1
  | ((some fd, err), w1) =>
    let r : trustItems × Option Error :=
      match err with
      | some e => ([], some e)
      | none =>
        match env.parsePlist (w1.read fd.name) with
        | (_, some e) => ([], some e)
        | (p, none) => (env.convertToTrustItems p, none)
    .ret r (os.Remove fd.name w1)

/-- The method `darwinStore.List`. -/
def darwinStore.List (env : Env) (w : World) : Outcome (List (Option Certificate) × Option Error) :=
  match readInstalledCerts env systemDirs w with
  | .panic w1 => .panic w1
  | .ret (_, some e) w1 => .ret ([], some e) w1
  | .ret (installed, none) w1 =>
    match getCertsWithTrustPolicy env w1 with
    | .panic w2 => .panic w2
    | .ret (_, some e) w2 => .ret ([], some e) w2
    | .ret (items, none) w2 =>
      let w3 := if env.debug then
          Println (toString installed.length ++ " installed, " ++ toString items.length
            ++ " with policy") w2
        else w2
      .ret (keptLoop items installed [], none) w3

/-- The loop of `Remove` that keeps what the whitelist matches. -/
def whitelistLoop (wh : Whitelist) : List (Option Certificate) → List (Option Certificate) →
    List (Option Certificate)
  | [], kept => kept
  | c :: rest, kept =>
    if wh.Matches c then whitelistLoop wh rest (kept ++ [c]) else whitelistLoop wh rest kept

/-- The loop of `Remove` that builds a trust item from every kept certificate. -/
def buildTrustItems (env : Env) : List (Option Certificate) → trustItems → World →
    trustItems × World
  | [], items, w => (items, w)
  | none :: rest, items, w => buildTrustItems env rest items w
  | some c :: rest, items, w =>
    let (now, w1) := time.Now env w
    buildTrustItems env rest (items ++ [trustItemFromCertificate now c]) w1

/-- The method `darwinStore.Remove`. -/
def darwinStore.Remove (env : Env) (wh : Whitelist) (w : World) : Outcome (Option Error) :=
  match darwinStore.List env w with
  | .panic w1 => .panic w1
  | .ret (_, some e) w1 => .ret (some e) w1
  | .ret (certs, none) w1 =>
    let kept := whitelistLoop wh certs []
    let (items, w2) := buildTrustItems env kept [] w1
    match ioutil.TempFile env "" "cert-manage" w2 with
    | (.error e, w3) => .ret (some e) w3
    | (.ok f, w3) =>
      match items.toPlist env.marshal with
      | none => .panic w3
      | some p =>
        match p.toXmlFile env f.name w3 with
        | (some e, w4) => .ret (some e) w4
        | (none, w4) => .ret none (Println f.name w4)

/-- The method `darwinStore.Restore`. -/
def darwinStore.Restore (env : Env) (where_ : String) (w : World) : Option Error × World :=
  let where1 := if where_ = "" then (getLatestBackupFile env w).1 else where_
  if where1 = "" then (some "No backup file found and -file not specified", w)
  else if !file.Exists w where1 then (some "Restore file doesn't exist", w)
  else
    let args := ["trust-settings-import", "-d", where1]
    match execOutput env "/usr/bin/security" args w with
    | ((_, err), w1) => (err, w1)

/-- The function `platform`: the darwin store. -/
def platform (env : Env) : Store := { Backup := darwinStore.Backup env }

/-! ## The commands of `pkg/cmd/backup.go` -/

/-- The function `BackupForPlatform`, `store.Platform()` being `s`. -/
def BackupForPlatform (s : Store) (w : World) : Outcome (Option Error) :=
  match s.Backup w with
  | .panic w1 => .panic w1
  | .ret err w1 =>
    if err = none then .ret err (Println "Backup completed successfully" w1)
    else .ret err w1

/-- The function `BackupForApp`, `forApp` being `store.ForApp`. -/
def BackupForApp (forApp : String → Option Store × Option Error) (app : String) (w : World) :
    Outcome (Option Error) :=
  match forApp app with
  | (_, some e) => .ret (some e) w
  | (none, none) => .panic w
  | (some s, none) =>
    match s.Backup w with
    | .panic w1 => .panic w1
    | .ret err w1 =>
      if err = none then .ret err (Println "Backup completed successfully" w1)
      else .ret err w1

/-! ## Auxiliary definitions for the statements -/

/-- The key element `toPlist` writes for an entry. -/
def keyOf (e : trustItem) : Option chiKey := some ⟨strings.ToUpper e.sha1Fingerprint⟩

/-- The date element `toPlist` writes for an entry. -/
def dateOf (e : trustItem) : Option chiDate := some ⟨e.modDate.Format plistModDateFormat⟩

/-- The data element `toPlist` writes for the issuer of an entry. -/
def issuerOf (marshal : pkix.Name → List Nat) (e : trustItem) : Option chiData :=
  some ⟨base64.EncodeToString (marshal e.issuerName)⟩

/-- The data element `toPlist` writes for the serial number of an entry. -/
def serialOf (e : trustItem) : Option chiData := some ⟨base64.EncodeToString e.serialNumber⟩

/-- What the data slice holds at index `j` once the loop of `toPlist` has run
`k` times: the issuer of entry `j` was stored at `j`, the serial number of
entry `j / 2` at the even index `j`, and the later store wins. -/
def dataAfter (marshal : pkix.Name → List Nat) (t : trustItems) (k j : Nat) : Option chiData :=
  if j = 0 then (if 0 < k then t[0]?.bind serialOf else none)
  else if j < k then t[j]?.bind (issuerOf marshal)
  else if j % 2 = 0 ∧ j / 2 < k then t[j / 2]?.bind serialOf
  else none

/-! ## Concrete inputs -/

/-- The empty distinguished name, `pkix.Name{}`. -/
def emptyName : pkix.Name := ⟨[], [], [], [], [], [], [], "", "", [], []⟩

/-- A trust entry whose modification time carries the zone UTC+1. -/
def zonedItem : trustItem := ⟨"ab", emptyName, ⟨0, 3600⟩, [1], 0⟩

/-- A trust entry whose modification time carries the zone UTC. -/
def utcItem : trustItem := ⟨"cd", emptyName, ⟨1520000000, 0⟩, [1, 0, 1], 0⟩

/-- A certificate whose signature bytes are the ASCII text abc. -/
def abcCert : Certificate := ⟨[48, 0], [97, 98, 99], emptyName, 1⟩

/-- A trust entry holding the fingerprint of `abcCert` in upper case, as the
keys of a plist are written. -/
def upperItem : trustItem :=
  ⟨"A9993E364706816ABA3E25717850C26C9CD0D89D", emptyName, ⟨0, 0⟩, [1], 0⟩

/-- The signatures of the certificates of a slice. -/
def sigsOf (res : List (Option Certificate)) : List (List Nat) :=
  res.filterMap (Option.map (fun c => c.Signature))

/-- Whether a slice element is a certificate with the signature `sig`. -/
def hasSignature (sig : List Nat) (x : Option Certificate) : Bool :=
  match x with
  | some c => c.Signature = sig
  | none => false

/-- Whether a slice element is a certificate with the fingerprint `fp`. -/
def hasFingerprint (fp : String) (x : Option Certificate) : Bool :=
  match x with
  | some c => GetHexSHA1Fingerprint c = fp
  | none => false

/-- Dedup as the spec words it, by signature: skip absent certificates, keep a
certificate unless its signature was seen before, in first-seen order. -/
def firstBySignature : List (List Nat) → List (Option Certificate) → List (Option Certificate)
  | _, [] => []
  | seen, none :: cs => firstBySignature seen cs
  | seen, some c :: cs =>
    if c.Signature ∈ seen then firstBySignature seen cs
    else some c :: firstBySignature (seen ++ [c.Signature]) cs

/-- A certificate with the same signature as `abcCert` and another serial number. -/
def abcTwin : Certificate := ⟨[48, 1], [97, 98, 99], emptyName, 2⟩

/-- A certificate with an empty signature. -/
def otherCert : Certificate := ⟨[48, 2], [], emptyName, 3⟩

/-- The trust entry `e` was built from the certificate the slice element `x`
points to: it holds the fingerprint, the issuer and the serial-number bytes of
that certificate, and a reading of the clock as its modification time. -/
def builtFrom (env : Env) (x : Option Certificate) (e : trustItem) : Prop :=
  ∃ c n, x = some c ∧ e.sha1Fingerprint = GetHexSHA1Fingerprint c ∧ e.issuerName = c.Issuer ∧
    e.modDate = env.now n ∧ e.serialNumber = big.Bytes c.SerialNumber

/-- The data elements of the encoding of a list of trust entries as the spec
words it (section 4.2): for entry `i` the base64 issuer name at index `2i` and
the base64 serial-number bytes at index `2i+1`. -/
def specData (marshal : pkix.Name → List Nat) (t : trustItems) : List (Option chiData) :=
  t.flatMap (fun e => [issuerOf marshal e, serialOf e])

/-- The XML text of a slice element, `<nil/>` for a nil pointer. -/
def xmlElem (tag : String) (text : Option String) : String :=
  match text with
  | some s => "<" ++ tag ++ ">" ++ s ++ "</" ++ tag ++ ">"
  | none => "<nil/>"

/-- An XML text of the trust list of a document: its keys, dates and data. -/
def xmlOfTrustList (p : plist) : String :=
  String.join ((p.trustKeys.getD []).map fun k => xmlElem "key" (k.map fun x => x.Text))
    ++ String.join ((p.trustDates.getD []).map fun k => xmlElem "date" (k.map fun x => x.Text))
    ++ String.join ((p.trustData.getD []).map fun k => xmlElem "data" (k.map fun x => x.Text))

/-- A whitelist matching the certificates whose serial number is 1. -/
def serialOneWhitelist : Whitelist :=
  { Matches := fun x => match x with
      | some c => c.SerialNumber = 1
      | none => false }

/-- The restore point `Restore` settles on: the argument, or the most recent
snapshot when the argument is empty. -/
def resolvedPath (env : Env) (where_ : String) (w : World) : String :=
  if where_ = "" then (getLatestBackupFile env w).1 else where_

/-- The command line of the native import of the file `path`. -/
def importArgv (path : String) : List String :=
  ["/usr/bin/security", "trust-settings-import", "-d", path]

/-- Whether a slice element is a certificate whose fingerprint is the
fingerprint of one of the trust entries. -/
def inPolicy (items : trustItems) (x : Option Certificate) : Bool :=
  match x with
  | some c => items.any (fun e => e.sha1Fingerprint = GetHexSHA1Fingerprint c)
  | none => false

/-- The call left the live trust policy alone: the policy is the same, and the
commands run during the call, none of them the native import, follow the
earlier ones. -/
def NoImport (w w' : World) : Prop :=
  w'.policy = w.policy ∧
    ∃ extra, w'.cmds = w.cmds ++ extra ∧ ∀ argv ∈ extra, isImport argv = false

/-- A trust entry holding the fingerprint of `abcCert` as
`GetHexSHA1Fingerprint` returns it. -/
def lowerItem : trustItem :=
  ⟨"a9993e364706816aba3e25717850c26c9cd0d89d", emptyName, ⟨0, 0⟩, [1], 0⟩

/-- The creation timestamp embedded in a snapshot name `trust-backup-<n>.xml`. -/
def snapshotTime (name : String) : Nat :=
  ((name.data.drop 13).takeWhile Char.isDigit).foldl (fun n c => n * 10 + (c.toNat - 48)) 0

/-- The backup directory: `Library/cert-manage` under the home directory. -/
def backupDir (env : Env) (home : String) : String := env.join home "/Library/cert-manage"

/-- An outside world in which every step succeeds: three snapshots in the backup
directory, listed neither oldest nor newest first and ordered by the timestamp
in their names, a dump of three certificates and an absent one, and a policy
with one entry. -/
def okEnv : Env where
  homeDir := .ok "/Users/u"
  join := fun a b => match b.data with
    | '/' :: _ => a ++ b
    | _ => a ++ "/" ++ b
  readDir := fun _ _ =>
    .ok ["trust-backup-100.xml", "trust-backup-200.xml", "trust-backup-150.xml"]
  less := fun a b => decide (snapshotTime a ≤ snapshotTime b)
  tempName := fun _ pattern w => .ok ("/tmp/" ++ pattern ++ toString w.files.length)
  run := fun _ _ => ([], none)
  pemParse := fun _ => ([some abcCert, none, some otherCert, some abcTwin], none)
  parsePlist := fun _ => (⟨none⟩, none)
  convertToTrustItems := fun _ => [lowerItem]
  now := fun n => ⟨1520000000 + n, 3600⟩
  mkdirAll := fun _ _ => none
  copyErr := fun _ _ _ => none
  marshal := fun _ => [48, 0]
  toXml := xmlOfTrustList
  writeErr := fun _ _ => none
  debug := false

/-- The same outside world, except that the trust-settings export of the native
utility exits with an error. -/
def exportFailEnv : Env :=
  { okEnv with
    run := fun argv _ => match argv with
      | _ :: "trust-settings-export" :: _ => ([], some "exit status 1")
      | _ => ([], none) }

/-- A world with one snapshot on disk and nothing run or printed yet. -/
def w0 : World :=
  { files := [("/Users/u/Library/cert-manage/trust-backup-200.xml", "saved policy")]
    policy := "live policy"
    cmds := []
    stdout := []
    clock := 0 }

/-- A store whose `Backup` fails. -/
def failingStore : Store := { Backup := fun w => .ret (some "disk full") w }

/-! # Theorems -/

/-! ## Lemmas on `toPlist` -/

theorem setIdx_of_lt {α : Type} (xs : List α) (i : Nat) (v : α) (h : i < xs.length) :
    setIdx xs i v = some (xs.set i v) := by
  simp [setIdx, h]

theorem toPlistBody_eq (marshal : pkix.Name → List Nat) (t : trustItems) (k : Nat)
    (s : plistSlices) (e : trustItem) (he : t[k]? = some e)
    (hk : s.keys.length = t.length) (hd : s.dates.length = t.length)
    (hx : s.data.length = t.length * 2) :
    toPlistBody marshal t (k * 2) s =
      some ⟨s.keys.set k (keyOf e), s.dates.set k (dateOf e),
        (s.data.set k (issuerOf marshal e)).set (k * 2) (serialOf e)⟩ := by
  have hlt : k < t.length := by
    rcases List.getElem?_eq_some_iff.mp he with ⟨h, _⟩
    exact h
  have h2 : k * 2 / 2 = k := by omega
  simp only [toPlistBody, h2, he, Option.bind_eq_bind, Option.some_bind]
  rw [setIdx_of_lt _ _ _ (by omega), Option.some_bind, setIdx_of_lt _ _ _ (by omega),
    Option.some_bind, setIdx_of_lt _ _ _ (by omega), Option.some_bind,
    setIdx_of_lt _ _ _ (by simp; omega)]
  rfl

theorem take_succ_set {α : Type} (l : List α) (k : Nat) (x : α) (h : k < l.length) :
    (l.set k x).take (k + 1) = l.take k ++ [x] := by
  induction l generalizing k with
  | nil => simp at h
  | cons a l ih =>
    cases k with
    | zero => simp
    | succ k =>
      simp only [List.length_cons, Nat.add_lt_add_iff_right] at h
      simp [List.set, ih k h]

theorem dataAfter_step (marshal : pkix.Name → List Nat) (t : trustItems) (k j : Nat)
    (data : List (Option chiData)) (hlt : k < t.length) (hlen : data.length = t.length * 2)
    (hj : j < t.length * 2) (hdata : data[j]? = some (dataAfter marshal t k j)) :
    ((data.set k (issuerOf marshal t[k])).set (k * 2) (serialOf t[k]))[j]? =
      some (dataAfter marshal t (k + 1) j) := by
  have he : t[k]? = some t[k] := List.getElem?_eq_getElem hlt
  rw [List.getElem?_set, List.getElem?_set, hdata]
  simp only [List.length_set, hlen]
  by_cases h2 : k * 2 = j
  · subst h2
    have hk2 : k * 2 / 2 = k := by omega
    by_cases hk0 : k = 0
    · subst hk0
      simp [dataAfter, serialOf, he, hlt]
    · have h1 : ¬ k * 2 = 0 := by omega
      have h3 : ¬ k * 2 < k + 1 := by omega
      have h4 : k * 2 % 2 = 0 ∧ k * 2 / 2 < k + 1 := by omega
      simp [dataAfter, h1, h3, h4, hk2, he, hlt]
  · by_cases h1 : k = j
    · subst h1
      have hk0 : ¬ k = 0 := by omega
      have hk2 : k < t.length * 2 := by omega
      simp [dataAfter, hk0, he, h2, hlt, hk2]
    · simp only [h2, h1, if_false]
      by_cases hj0 : j = 0
      · subst hj0
        have : 0 < k := by omega
        simp [dataAfter, this]
      · congr 1
        simp only [dataAfter, hj0, if_false]
        by_cases hjk : j < k
        · have : j < k + 1 := by omega
          simp [hjk, this]
        · have hjk1 : ¬ j < k + 1 := by omega
          simp only [hjk, hjk1, if_false]
          by_cases hev : j % 2 = 0 ∧ j / 2 < k
          · have : j % 2 = 0 ∧ j / 2 < k + 1 := ⟨hev.1, by omega⟩
            simp [hev, this]
          · have : ¬ (j % 2 = 0 ∧ j / 2 < k + 1) := by omega
            simp [hev, this]

theorem toPlistLoop_spec (marshal : pkix.Name → List Nat) (t : trustItems) :
    ∀ (n k fuel : Nat) (s : plistSlices), k + n = t.length → n ≤ fuel →
      s.keys.length = t.length → s.dates.length = t.length → s.data.length = t.length * 2 →
      (∀ j, j < t.length * 2 → s.data[j]? = some (dataAfter marshal t k j)) →
      ∃ s', toPlistLoop marshal t (t.length * 2) fuel (k * 2) s = some s' ∧
        s'.keys = s.keys.take k ++ (t.drop k).map keyOf ∧
        s'.dates = s.dates.take k ++ (t.drop k).map dateOf ∧
        s'.data.length = t.length * 2 ∧
        ∀ j, j < t.length * 2 → s'.data[j]? = some (dataAfter marshal t t.length j) := by
  intro n
  induction n with
  | zero =>
    intro k fuel s hk _ h1 h2 h3 h4
    have hkN : k = t.length := by omega
    refine ⟨s, ?_, ?_, ?_, h3, ?_⟩
    · cases fuel <;> simp [toPlistLoop, hkN]
    · simp [hkN, ← h1]
    · simp [hkN, ← h2]
    · subst hkN
      exact h4
  | succ n ih =>
    intro k fuel s hk hf h1 h2 h3 h4
    have hlt : k < t.length := by omega
    obtain ⟨f, rfl⟩ : ∃ f, fuel = f + 1 := ⟨fuel - 1, by omega⟩
    have he : t[k]? = some t[k] := List.getElem?_eq_getElem hlt
    have hcond : k * 2 < t.length * 2 := by omega
    obtain ⟨s', hs', hk', hd', hx', hy'⟩ := ih (k + 1) f
      ⟨s.keys.set k (keyOf t[k]), s.dates.set k (dateOf t[k]),
        (s.data.set k (issuerOf marshal t[k])).set (k * 2) (serialOf t[k])⟩
      (by omega) (by omega) (by simp [h1]) (by simp [h2]) (by simp [h3])
      (fun j hj => dataAfter_step marshal t k j s.data hlt h3 hj (h4 j hj))
    refine ⟨s', ?_, ?_, ?_, hx', hy'⟩
    · simp only [toPlistLoop, hcond, if_true]
      rw [toPlistBody_eq marshal t k s t[k] he h1 h2 h3, Option.some_bind]
      have : k * 2 + 2 = (k + 1) * 2 := by omega
      rw [this]
      exact hs'
    · rw [hk', take_succ_set _ _ _ (by omega), List.drop_eq_getElem_cons hlt, List.map_cons,
        List.append_assoc]
      rfl
    · rw [hd', take_succ_set _ _ _ (by omega), List.drop_eq_getElem_cons hlt, List.map_cons,
        List.append_assoc]
      rfl

theorem toPlistSlices_spec (marshal : pkix.Name → List Nat) (t : trustItems) :
    ∃ s, toPlistSlices marshal t = some s ∧ s.keys = t.map keyOf ∧ s.dates = t.map dateOf ∧
      s.data.length = t.length * 2 ∧
      ∀ j, j < t.length * 2 → s.data[j]? = some (dataAfter marshal t t.length j) := by
  obtain ⟨s, hs, hk, hd, hx, hy⟩ := toPlistLoop_spec marshal t t.length 0 (t.length * 2)
    ⟨List.replicate t.length none, List.replicate t.length none,
      List.replicate (t.length * 2) none⟩ (by omega) (by omega) (by simp) (by simp) (by simp)
    (by
      intro j hj
      simp [dataAfter, hj])
  refine ⟨s, ?_, ?_, ?_, hx, hy⟩
  · simpa [toPlistSlices] using hs
  · simpa using hk
  · simpa using hd

/-- The layout of the document `toPlist` builds, for every entry list: it never
panics, there are N keys and N dates in entry order, and 2N data elements of
which the one at index `j` is `dataAfter marshal t N j`. -/
theorem toPlist_layout (marshal : pkix.Name → List Nat) (t : trustItems) :
    ∃ p data, t.toPlist marshal = some p ∧ p.trustKeys = some (t.map keyOf) ∧
      p.trustDates = some (t.map dateOf) ∧ p.trustData = some data ∧
      data.length = t.length * 2 ∧
      ∀ j, j < t.length * 2 → data[j]? = some (dataAfter marshal t t.length j) := by
  obtain ⟨s, hs, hk, hd, hx, hy⟩ := toPlistSlices_spec marshal t
  refine ⟨plistOf s, s.data, ?_, ?_, ?_, ?_, hx, hy⟩
  · simp only [trustItems.toPlist, hs, Option.map_some']
  · simp [plistOf, plist.trustKeys, chiDict.sub, chiDict.keys, hk]
  · simp [plistOf, plist.trustDates, chiDict.sub, chiDict.dates, hd]
  · simp [plistOf, plist.trustData, chiDict.sub, chiDict.data]

/-- C1, at the failing input: for a list of one trust entry `toPlist` stores
the base64 serial number at data index 0, where the issuer name belongs, and
leaves data index 1 nil, where the serial number belongs; so the data slice is
not the pair of the base64 issuer name and the base64 serial number. -/
theorem C1_toPlist_one_entry_data (marshal : pkix.Name → List Nat) (e : trustItem) :
    ∃ p, trustItems.toPlist marshal [e] = some p ∧
      p.trustData = some [some ⟨base64.EncodeToString e.serialNumber⟩, none] ∧
      p.trustData ≠ some [some ⟨base64.EncodeToString (marshal e.issuerName)⟩,
        some ⟨base64.EncodeToString e.serialNumber⟩] := by
  refine ⟨_, rfl, ?_, ?_⟩ <;>
    simp [plistOf, plist.trustData, chiDict.sub, chiDict.data, List.set]

/-- C8, at the failing input: for one entry whose modification time carries
the zone UTC+1, the key `toPlist` emits is the uppercase fingerprint, and the
date it emits is the wall clock of that zone followed by the letter Z, one hour
off the time expressed in UTC. -/
theorem C8_toPlist_date_in_local_zone :
    (trustItems.toPlist (fun _ => [48, 0]) [zonedItem]).bind plist.trustKeys
        = some [some ⟨"AB"⟩] ∧
      (trustItems.toPlist (fun _ => [48, 0]) [zonedItem]).bind plist.trustDates
        = some [some ⟨"1970-01-01T01:00:00Z"⟩] ∧
      zonedItem.modDate.UTC.Format plistModDateFormat = "1970-01-01T00:00:00Z" := by
  decide

/-- For every list of N trust entries and every i < N, `toPlist` returns a
document with N keys and N dates, whose i-th key is the uppercase fingerprint
of entry i and whose i-th date is the modification time of entry i formatted
with `plistModDateFormat` in the location that time carries; it is the time
expressed in UTC when that location is UTC. -/
theorem toPlist_keys_dates (marshal : pkix.Name → List Nat) (t : trustItems) (i : Nat)
    (hi : i < t.length) :
    ∃ p keys dates, t.toPlist marshal = some p ∧ p.trustKeys = some keys ∧
      p.trustDates = some dates ∧ keys.length = t.length ∧ dates.length = t.length ∧
      keys[i]? = some (some ⟨strings.ToUpper t[i].sha1Fingerprint⟩) ∧
      dates[i]? = some (some ⟨t[i].modDate.Format plistModDateFormat⟩) ∧
      (t[i].modDate.offset = 0 →
        dates[i]? = some (some ⟨t[i].modDate.UTC.Format plistModDateFormat⟩)) := by
  obtain ⟨p, data, hp, hk, hd, _, _, _⟩ := toPlist_layout marshal t
  have h1 : (t.map dateOf)[i]? = some (some ⟨t[i].modDate.Format plistModDateFormat⟩) := by
    simp [List.getElem?_map, List.getElem?_eq_getElem hi, dateOf]
  refine ⟨p, t.map keyOf, t.map dateOf, hp, hk, hd, by simp, by simp, ?_, h1, ?_⟩
  · simp [List.getElem?_map, List.getElem?_eq_getElem hi, keyOf]
  · intro h0
    have : t[i].modDate.UTC = t[i].modDate := by
      cases hm : t[i].modDate with
      | mk u o =>
        rw [hm] at h0
        simp only at h0
        simp [Time.UTC, h0]
    rw [this]
    exact h1

/-- The keys and dates of a list of two entries, at index 1, where the
modification time is in UTC. -/
theorem toPlist_keys_dates_at_utc_entry :
    ∃ p keys dates, trustItems.toPlist (fun _ => [48, 0]) [zonedItem, utcItem] = some p ∧
      p.trustKeys = some keys ∧ p.trustDates = some dates ∧ keys.length = 2 ∧
      dates.length = 2 ∧ keys[1]? = some (some ⟨"CD"⟩) ∧
      dates[1]? = some (some ⟨"2018-03-02T14:13:20Z"⟩) :=
  (toPlist_keys_dates (fun _ => [48, 0]) [zonedItem, utcItem] 1 (by decide)).imp
    fun p h => h.imp fun keys h => h.imp fun dates h =>
      ⟨h.1, h.2.1, h.2.2.1, h.2.2.2.1, h.2.2.2.2.1,
        h.2.2.2.2.2.1.trans (by decide), h.2.2.2.2.2.2.1.trans (by decide)⟩

/-- The scan of `contains` finds exactly an entry with an equal fingerprint. -/
theorem containsLoop_iff (fp : String) (t : trustItems) :
    containsLoop fp t = true ↔ ∃ e ∈ t, e.sha1Fingerprint = fp := by
  induction t with
  | nil => simp [containsLoop]
  | cons e rest ih =>
    by_cases h : fp = e.sha1Fingerprint
    · simp [containsLoop, h]
    · have h' : ¬ e.sha1Fingerprint = fp := fun h2 => h h2.symm
      simp [containsLoop, h, h', ih]

/-- C7 fails at an entry holding the fingerprint of the certificate in upper
case: the two match case-insensitively, and `contains` returns false. -/
theorem C7_counterexample :
    trustItems.contains [upperItem] (some abcCert) = false ∧
      strings.EqualFold upperItem.sha1Fingerprint (GetHexSHA1Fingerprint abcCert) = true := by
  decide

/-- C7, amended: for every trust-entry list and every present certificate,
`contains` returns true if and only if some entry's fingerprint is the same
string, character for character, as the fingerprint of the certificate. -/
theorem C7_contains_iff_exact (t : trustItems) (c : Certificate) :
    t.contains (some c) = true ↔ ∃ e ∈ t, e.sha1Fingerprint = GetHexSHA1Fingerprint c := by
  simp [trustItems.contains, containsLoop_iff]

/-! ## Lemmas on the dedup loop -/

theorem dedupAdd_eq (c : Certificate) (res : List (Option Certificate))
    (hres : ∀ x ∈ res, x ≠ none) :
    dedupAdd c res = some (decide (c.Signature ∉ sigsOf res)) := by
  induction res with
  | nil => simp [dedupAdd, sigsOf]
  | cons x rest ih =>
    cases x with
    | none => exact absurd rfl (hres none (List.mem_cons_self _ _))
    | some r =>
      have hrest : ∀ x ∈ rest, x ≠ none := fun x hx => hres x (List.mem_cons_of_mem _ hx)
      by_cases h : c.Signature = r.Signature
      · simp [dedupAdd, sigsOf, h]
      · have ih' := ih hrest
        simp only [sigsOf] at ih'
        simp [dedupAdd, sigsOf, h, ih']

theorem sigsOf_append_some (res : List (Option Certificate)) (c : Certificate) :
    sigsOf (res ++ [some c]) = sigsOf res ++ [c.Signature] := by
  simp [sigsOf, List.filterMap_append]

theorem dedupLoop_eq (cs : List (Option Certificate)) :
    ∀ res : List (Option Certificate), (∀ x ∈ res, x ≠ none) →
      dedupLoop cs res = some (res ++ firstBySignature (sigsOf res) cs) := by
  induction cs with
  | nil => intro res _; simp [dedupLoop, firstBySignature]
  | cons x cs ih =>
    intro res hres
    cases x with
    | none => simpa [dedupLoop, firstBySignature] using ih res hres
    | some c =>
      by_cases h : c.Signature ∈ sigsOf res
      · simp only [dedupLoop, dedupAdd_eq c res hres, firstBySignature, h, not_true_eq_false,
          decide_False, if_true]
        simpa using ih res hres
      · have hres' : ∀ x ∈ res ++ [some c], x ≠ none := by
          intro x hx
          rcases List.mem_append.mp hx with hx | hx
          · exact hres x hx
          · simp at hx
            simp [hx]
        simp only [dedupLoop, dedupAdd_eq c res hres, firstBySignature, h, not_false_eq_true,
          decide_True, if_true, if_false]
        rw [ih _ hres', sigsOf_append_some]
        simp

theorem firstBySignature_sublist (cs : List (Option Certificate)) :
    ∀ seen, (firstBySignature seen cs).Sublist cs := by
  induction cs with
  | nil => intro seen; simp [firstBySignature]
  | cons x cs ih =>
    intro seen
    cases x with
    | none => exact (ih seen).cons _
    | some c =>
      by_cases h : c.Signature ∈ seen
      · simpa [firstBySignature, h] using (ih seen).cons _
      · simpa [firstBySignature, h] using (ih (seen ++ [c.Signature])).cons₂ (some c)

theorem firstBySignature_mem (cs : List (Option Certificate)) :
    ∀ seen x, x ∈ firstBySignature seen cs →
      ∃ k, x = some k ∧ k.Signature ∉ seen := by
  induction cs with
  | nil => intro seen x hx; simp [firstBySignature] at hx
  | cons y cs ih =>
    intro seen x hx
    cases y with
    | none => exact ih seen x (by simpa [firstBySignature] using hx)
    | some c =>
      by_cases h : c.Signature ∈ seen
      · exact ih seen x (by simpa [firstBySignature, h] using hx)
      · simp only [firstBySignature, h, if_false, List.mem_cons] at hx
        rcases hx with rfl | hx
        · exact ⟨c, rfl, h⟩
        · obtain ⟨k, hk, hns⟩ := ih _ x hx
          exact ⟨k, hk, fun hm => hns (List.mem_append_left _ hm)⟩

theorem firstBySignature_pairwise (cs : List (Option Certificate)) :
    ∀ seen, (firstBySignature seen cs).Pairwise
      (fun a b => a.map (fun c => c.Signature) ≠ b.map (fun c => c.Signature)) := by
  induction cs with
  | nil => intro seen; simp [firstBySignature]
  | cons y cs ih =>
    intro seen
    cases y with
    | none => simpa [firstBySignature] using ih seen
    | some c =>
      by_cases h : c.Signature ∈ seen
      · simpa [firstBySignature, h] using ih seen
      · simp only [firstBySignature, h, if_false, List.pairwise_cons]
        refine ⟨?_, ih _⟩
        intro x hx
        obtain ⟨k, rfl, hns⟩ := firstBySignature_mem cs _ x hx
        intro heq
        simp only [Option.map_some', Option.some.injEq] at heq
        exact hns (by simp [heq])

theorem firstBySignature_cover (cs : List (Option Certificate)) :
    ∀ seen c, some c ∈ cs →
      c.Signature ∈ seen ∨ ∃ k, some k ∈ firstBySignature seen cs ∧ k.Signature = c.Signature := by
  induction cs with
  | nil => intro seen c hc; simp at hc
  | cons y cs ih =>
    intro seen c hc
    rcases List.mem_cons.mp hc with hy | hc'
    · subst hy
      by_cases h : c.Signature ∈ seen
      · exact Or.inl h
      · exact Or.inr ⟨c, by simp [firstBySignature, h], rfl⟩
    · cases y with
      | none => simpa [firstBySignature] using ih seen c hc'
      | some d =>
        by_cases h : d.Signature ∈ seen
        · simpa [firstBySignature, h] using ih seen c hc'
        · rcases ih (seen ++ [d.Signature]) c hc' with hm | ⟨k, hk, hks⟩
          · rcases List.mem_append.mp hm with hm | hm
            · exact Or.inl hm
            · simp only [List.mem_singleton] at hm
              exact Or.inr ⟨d, by simp [firstBySignature, h], hm.symm⟩
          · exact Or.inr ⟨k, by simp [firstBySignature, h, hk], hks⟩

theorem firstBySignature_is_first (cs : List (Option Certificate)) :
    ∀ seen k, some k ∈ firstBySignature seen cs →
      cs.find? (hasSignature k.Signature) = some (some k) := by
  induction cs with
  | nil => intro seen k hk; simp [firstBySignature] at hk
  | cons y cs ih =>
    intro seen k hk
    cases y with
    | none =>
      simp only [firstBySignature] at hk
      simpa [List.find?, hasSignature] using ih seen k hk
    | some c =>
      by_cases h : c.Signature ∈ seen
      · simp only [firstBySignature, h, if_true] at hk
        obtain ⟨k', hk', hns⟩ := firstBySignature_mem cs seen _ hk
        cases hk'
        have hne : ¬ c.Signature = k.Signature := fun he => hns (he ▸ h)
        simpa [List.find?, hasSignature, hne] using ih seen k hk
      · simp only [firstBySignature, h, if_false, List.mem_cons, Option.some.injEq] at hk
        rcases hk with rfl | hk
        · simp [List.find?, hasSignature]
        · obtain ⟨k', hk', hns⟩ := firstBySignature_mem cs _ _ hk
          cases hk'
          have hne : ¬ c.Signature = k.Signature := fun he => hns (by simp [he])
          simpa [List.find?, hasSignature, hne] using ih _ k hk

theorem firstBySignature_keeps_first (cs : List (Option Certificate)) :
    ∀ seen c, c.Signature ∉ seen → cs.find? (hasSignature c.Signature) = some (some c) →
      some c ∈ firstBySignature seen cs := by
  induction cs with
  | nil => intro seen c _ hf; simp at hf
  | cons y cs ih =>
    intro seen c hns hf
    cases y with
    | none =>
      simp only [firstBySignature]
      exact ih seen c hns (by simpa [List.find?, hasSignature] using hf)
    | some d =>
      by_cases hd : d.Signature = c.Signature
      · have hdc : d = c := by simpa [List.find?, hasSignature, hd] using hf
        subst hdc
        simp [firstBySignature, hns]
      · have hf' : cs.find? (hasSignature c.Signature) = some (some c) := by
          simpa [List.find?, hasSignature, hd] using hf
        by_cases h : d.Signature ∈ seen
        · simpa [firstBySignature, h] using ih seen c hns hf'
        · have hns' : c.Signature ∉ seen ++ [d.Signature] := by
            simp only [List.mem_append, List.mem_singleton, not_or]
            exact ⟨hns, fun he => hd he.symm⟩
          simp only [firstBySignature, h, if_false, List.mem_cons]
          exact Or.inr (ih _ c hns' hf')

theorem first_fingerprint_first_signature (cs : List (Option Certificate)) (c : Certificate) :
    cs.find? (hasFingerprint (GetHexSHA1Fingerprint c)) = some (some c) →
      cs.find? (hasSignature c.Signature) = some (some c) := by
  induction cs with
  | nil => intro hf; simp at hf
  | cons y cs ih =>
    intro hf
    cases y with
    | none => simpa [List.find?, hasSignature] using ih (by simpa [List.find?, hasFingerprint] using hf)
    | some d =>
      by_cases hd : GetHexSHA1Fingerprint d = GetHexSHA1Fingerprint c
      · have hdc : d = c := by simpa [List.find?, hasFingerprint, hd] using hf
        subst hdc
        simp [List.find?, hasSignature]
      · have hs : ¬ d.Signature = c.Signature := by
          intro he
          exact hd (by simp [GetHexSHA1Fingerprint, he])
        simpa [List.find?, hasSignature, hs] using
          ih (by simpa [List.find?, hasFingerprint, hd] using hf)

/-! ## SHA-1 has collisions -/

theorem sha1_Sum_mem (msg : List Nat) :
    sha1.Sum msg ∈ {l : List Nat | l.length = 20 ∧ ∀ x ∈ l, x < 256} := by
  constructor
  · simp [sha1.Sum, sha1.word4]
  · intro x hx
    simp only [sha1.Sum, sha1.word4, List.mem_append, List.mem_cons, List.mem_singleton,
      List.not_mem_nil, or_false] at hx
    rcases hx with (((h | h) | h) | h) | h <;>
      rcases h with h | h | h | h <;> subst h <;> exact Nat.mod_lt _ (by decide)

theorem sha1_collision : ∃ a b : List Nat, a ≠ b ∧ sha1.Sum a = sha1.Sum b := by
  by_contra hno
  have hinj : Function.Injective sha1.Sum := by
    intro a b hab
    by_contra hne
    exact hno ⟨a, b, hne, hab⟩
  have hfin : {l : List Nat | l.length = 20 ∧ ∀ x ∈ l, x < 256}.Finite := by
    refine ((List.finite_length_eq (Fin 256) 20).image (List.map Fin.val)).subset ?_
    rintro l ⟨hlen, hlt⟩
    refine ⟨l.pmap (fun x h => (⟨x, h⟩ : Fin 256)) hlt, by simp [hlen], ?_⟩
    simp [List.map_pmap]
  exact Set.infinite_of_injective_forall_mem hinj sha1_Sum_mem hfin

/-- C6 fails as stated: SHA-1 maps infinitely many signatures to finitely many
digests, so two certificates with different signatures and the same
fingerprint exist, and the dedup loop, which compares signatures, keeps both. -/
theorem C6_counterexample :
    ¬ ∀ (cs res : List (Option Certificate)), dedupLoop cs [] = some res →
      res.Pairwise (fun a b => a.map GetHexSHA1Fingerprint ≠ b.map GetHexSHA1Fingerprint) := by
  intro h
  obtain ⟨a, b, hne, hab⟩ := sha1_collision
  have hba : ¬ b = a := fun e => hne e.symm
  have hd : dedupLoop [some ⟨[], a, emptyName, 0⟩, some ⟨[], b, emptyName, 0⟩] []
      = some [some ⟨[], a, emptyName, 0⟩, some ⟨[], b, emptyName, 0⟩] := by
    simp [dedupLoop, dedupAdd, hba]
  have hp := h _ _ hd
  simp [GetHexSHA1Fingerprint, hab] at hp

/-- C6, amended: for every list of parsed certificates, possibly with absent
entries and duplicates, the dedup loop of `readInstalledCerts` returns (it does
not panic) one certificate per unique signature byte string: the result is a
sublist of the input (first-seen order), holds no absent certificate, holds no
two certificates with the same signature, holds for every input certificate one
with its signature, and every kept certificate is the first of the input with
its signature. The first certificate of each fingerprint is always kept, and
the kept fingerprints are pairwise different whenever certificates of the input
with equal fingerprints have equal signatures. -/
theorem C6_dedup_by_signature (cs : List (Option Certificate)) :
    ∃ res, dedupLoop cs [] = some res ∧
      res.Sublist cs ∧
      none ∉ res ∧
      res.Pairwise (fun a b => a.map (fun c => c.Signature) ≠ b.map (fun c => c.Signature)) ∧
      (∀ c, some c ∈ cs → ∃ k, some k ∈ res ∧ k.Signature = c.Signature) ∧
      (∀ k, some k ∈ res → cs.find? (hasSignature k.Signature) = some (some k)) ∧
      (∀ c, cs.find? (hasFingerprint (GetHexSHA1Fingerprint c)) = some (some c) →
        some c ∈ res) ∧
      ((∀ x ∈ cs, ∀ y ∈ cs, x.map GetHexSHA1Fingerprint = y.map GetHexSHA1Fingerprint →
          x.map (fun c => c.Signature) = y.map (fun c => c.Signature)) →
        res.Pairwise
          (fun a b => a.map GetHexSHA1Fingerprint ≠ b.map GetHexSHA1Fingerprint)) := by
  have hsub := firstBySignature_sublist cs []
  have hpw := firstBySignature_pairwise cs []
  refine ⟨firstBySignature [] cs, ?_, hsub, ?_, hpw, ?_, ?_, ?_, ?_⟩
  · simpa [sigsOf] using dedupLoop_eq cs [] (by simp)
  · intro hn
    obtain ⟨k, hk, _⟩ := firstBySignature_mem cs [] none hn
    cases hk
  · intro c hc
    rcases firstBySignature_cover cs [] c hc with h | h
    · simp at h
    · exact h
  · exact fun k hk => firstBySignature_is_first cs [] k hk
  · intro c hc
    exact firstBySignature_keeps_first cs [] c (by simp)
      (first_fingerprint_first_signature cs c hc)
  · intro hcol
    refine hpw.imp_of_mem ?_
    intro a b ha hb hne heq
    exact hne (hcol a (hsub.subset ha) b (hsub.subset hb) heq)

/-- Witness of `C6_dedup_by_signature`: a dump with an absent entry and a later
certificate carrying the signature of the first one. -/
theorem C6_dedup_by_signature_witness :
    dedupLoop [some abcCert, none, some otherCert, some abcTwin] []
        = some [some abcCert, some otherCert] ∧
      [some abcCert, some otherCert].Pairwise
        (fun a b => a.map GetHexSHA1Fingerprint ≠ b.map GetHexSHA1Fingerprint) := by
  obtain ⟨res, hres, _, _, _, _, _, _, hfp⟩ :=
    C6_dedup_by_signature [some abcCert, none, some otherCert, some abcTwin]
  have hval : dedupLoop [some abcCert, none, some otherCert, some abcTwin] []
      = some [some abcCert, some otherCert] := by decide
  have hr : res = [some abcCert, some otherCert] := by
    rw [hval] at hres
    exact (Option.some.inj hres).symm
  subst hr
  exact ⟨hval, hfp (by decide)⟩

/-! ## Restore and the backup commands -/

theorem execOutput_cmds (env : Env) (name : String) (args : List String) (w : World) :
    (execOutput env name args w).2.cmds = w.cmds ++ [name :: args] := by
  unfold execOutput
  simp only
  split
  · unfold nativeEffect
    split
    · rfl
    · split <;> rfl
    · rfl
  · rfl

/-! ### The most recent snapshot -/

theorem getLast?_orderedInsert {α : Type} (r : α → α → Prop) [DecidableRel r] (a : α) :
    ∀ s : List α,
      ((s.orderedInsert r a).getLast? = some a ∧ ∀ x ∈ s, ¬ r a x) ∨
      ((s.orderedInsert r a).getLast? = s.getLast? ∧ ∃ b ∈ s, r a b) := by
  intro s
  induction s with
  | nil => exact Or.inl ⟨rfl, by simp⟩
  | cons b l ih =>
    by_cases hab : r a b
    · refine Or.inr ⟨?_, b, List.mem_cons_self _ _, hab⟩
      simp [List.orderedInsert, hab]
    · have hne : l.orderedInsert r a ≠ [] := by
        intro h
        have hm : a ∈ l.orderedInsert r a := (List.mem_orderedInsert r).mpr (Or.inl rfl)
        rw [h] at hm
        exact absurd hm (List.not_mem_nil a)
      obtain ⟨y, ys, hy⟩ := List.exists_cons_of_ne_nil hne
      have hcons : (List.orderedInsert r a (b :: l)).getLast?
          = (l.orderedInsert r a).getLast? := by
        simp only [List.orderedInsert, hab, if_false]
        rw [hy, List.getLast?_cons_cons]
      rcases ih with ⟨h1, h2⟩ | ⟨h1, c, hc, hac⟩
      · refine Or.inl ⟨hcons.trans h1, ?_⟩
        intro x hx
        rcases List.mem_cons.mp hx with rfl | hx
        · exact hab
        · exact h2 x hx
      · refine Or.inr ⟨?_, c, List.mem_cons_of_mem _ hc, hac⟩
        rw [hcons, h1]
        obtain ⟨z, zs, hz⟩ := List.exists_cons_of_ne_nil (List.ne_nil_of_mem hc)
        rw [hz, List.getLast?_cons_cons]

theorem getLast?_insertionSort_max {α : Type} (r : α → α → Prop) [DecidableRel r] :
    ∀ l : List α, l ≠ [] →
      (∀ a ∈ l, ∀ b ∈ l, r a b ∨ r b a) →
      (∀ a ∈ l, ∀ b ∈ l, ∀ c ∈ l, r a b → r b c → r a c) →
      ∃ m, (l.insertionSort r).getLast? = some m ∧ m ∈ l ∧ ∀ x ∈ l, r x m := by
  intro l
  induction l with
  | nil => intro h; exact absurd rfl h
  | cons a l ih =>
    intro _ htot htr
    have haa : r a a := (htot a (List.mem_cons_self _ _) a (List.mem_cons_self _ _)).elim id id
    by_cases hl : l = []
    · subst hl
      refine ⟨a, rfl, List.mem_cons_self _ _, ?_⟩
      intro x hx
      rw [List.mem_singleton.mp hx]
      exact haa
    · obtain ⟨m, hm, hml, hmax⟩ := ih hl
        (fun x hx y hy => htot x (List.mem_cons_of_mem _ hx) y (List.mem_cons_of_mem _ hy))
        (fun x hx y hy z hz => htr x (List.mem_cons_of_mem _ hx) y (List.mem_cons_of_mem _ hy)
          z (List.mem_cons_of_mem _ hz))
      rcases getLast?_orderedInsert r a (l.insertionSort r) with ⟨h1, h2⟩ | ⟨h1, b, hb, hab⟩
      · refine ⟨a, h1, List.mem_cons_self _ _, ?_⟩
        intro x hx
        rcases List.mem_cons.mp hx with rfl | hx
        · exact haa
        · rcases htot x (List.mem_cons_of_mem _ hx) a (List.mem_cons_self _ _) with h | h
          · exact h
          · exact absurd h (h2 x ((List.mem_insertionSort r).mpr hx))
      · have hbl : b ∈ l := (List.mem_insertionSort r).mp hb
        refine ⟨m, h1.trans hm, List.mem_cons_of_mem _ hml, ?_⟩
        intro x hx
        rcases List.mem_cons.mp hx with rfl | hx
        · exact htr x (List.mem_cons_self _ _) b (List.mem_cons_of_mem _ hbl) m
            (List.mem_cons_of_mem _ hml) hab (hmax b hbl)
        · exact hmax x hx

/-- With an empty argument, a home directory and a non-empty listing of the
backup directory, `Restore` settles on a listed snapshot that the order of
`file.SortFileInfos` puts last: every listed snapshot comes before it. -/
theorem resolvedPath_most_recent (env : Env) (w : World) (home : String) (fis : List String)
    (hhome : env.homeDir = .ok home) (hdir : env.readDir (backupDir env home) w = .ok fis)
    (hne : fis ≠ [])
    (htot : ∀ a ∈ fis, ∀ b ∈ fis, env.less a b = true ∨ env.less b a = true)
    (htr : ∀ a ∈ fis, ∀ b ∈ fis, ∀ c ∈ fis,
      env.less a b = true → env.less b c = true → env.less a c = true) :
    ∃ latest ∈ fis, (∀ x ∈ fis, env.less x latest = true) ∧
      resolvedPath env "" w = env.join (backupDir env home) latest := by
  obtain ⟨m, hm, hmem, hmax⟩ :=
    getLast?_insertionSort_max (fun a b => env.less a b = true) fis hne htot htr
  refine ⟨m, hmem, hmax, ?_⟩
  have hlen : ¬ fis.length = 0 := fun h => hne (List.length_eq_zero.mp h)
  simp only [backupDir] at hdir
  simp only [resolvedPath, if_true, getLatestBackupFile, getCertManageDir, hhome, hdir, hlen,
    dite_false, backupDir]
  congr 1
  have h2 := List.getLast?_eq_getLast (file.SortFileInfos env.less fis)
    (by
      intro hs
      have hl := List.length_insertionSort (fun a b => env.less a b = true) fis
      simp only [file.SortFileInfos] at hs
      rw [hs] at hl
      exact hlen hl.symm)
  simp only [file.SortFileInfos] at h2
  rw [hm] at h2
  exact (Option.some.inj h2).symm

/-- With an empty argument and no snapshot to be had (no current user, a
backup directory that cannot be read, or an empty one), `Restore` settles on
the empty path. -/
theorem resolvedPath_no_snapshot (env : Env) (w : World) :
    (∀ e, env.homeDir = .error e → resolvedPath env "" w = "") ∧
    (∀ home e, env.homeDir = .ok home → env.readDir (backupDir env home) w = .error e →
      resolvedPath env "" w = "") ∧
    (∀ home, env.homeDir = .ok home → env.readDir (backupDir env home) w = .ok [] →
      resolvedPath env "" w = "") := by
  refine ⟨?_, ?_, ?_⟩
  · intro e he
    simp [resolvedPath, getLatestBackupFile, getCertManageDir, he]
  · intro home e hh hd
    simp only [backupDir] at hd
    simp [resolvedPath, getLatestBackupFile, getCertManageDir, hh, hd]
  · intro home hh hd
    simp only [backupDir] at hd
    simp [resolvedPath, getLatestBackupFile, getCertManageDir, hh, hd]

/-- C2: for every path argument and every state of the backup directory and
the file system. The resolved path is the argument when that is non-empty;
when it is empty it is the most recent snapshot, the listed file that the
order of `file.SortFileInfos` puts after every other listed file, and it is
empty when there is no snapshot (no current user, an unreadable or an empty
backup directory). When the resolved path is non-empty and exists, `Restore`
runs the native import of that path and returns its result; when the argument
is empty and there is no snapshot it fails with the no-backup error; when the
resolved path is non-empty and does not exist it fails with the restore-file
error; in both failures the world is untouched; and a native import is among
the commands run exactly when the resolved path is non-empty and exists. -/
theorem C2_Restore_import_iff (env : Env) (where_ : String) (w : World) :
    (where_ ≠ "" → resolvedPath env where_ w = where_) ∧
    (∀ home fis, env.homeDir = .ok home → env.readDir (backupDir env home) w = .ok fis →
      fis ≠ [] →
      (∀ a ∈ fis, ∀ b ∈ fis, env.less a b = true ∨ env.less b a = true) →
      (∀ a ∈ fis, ∀ b ∈ fis, ∀ c ∈ fis,
        env.less a b = true → env.less b c = true → env.less a c = true) →
      ∃ latest ∈ fis, (∀ x ∈ fis, env.less x latest = true) ∧
        resolvedPath env "" w = env.join (backupDir env home) latest) ∧
    ((∀ e, env.homeDir = .error e → resolvedPath env "" w = "") ∧
      (∀ home e, env.homeDir = .ok home → env.readDir (backupDir env home) w = .error e →
        resolvedPath env "" w = "") ∧
      (∀ home, env.homeDir = .ok home → env.readDir (backupDir env home) w = .ok [] →
        resolvedPath env "" w = "")) ∧
    (resolvedPath env where_ w ≠ "" ∧ file.Exists w (resolvedPath env where_ w) = true →
      (darwinStore.Restore env where_ w).2.cmds
          = w.cmds ++ [importArgv (resolvedPath env where_ w)] ∧
        (darwinStore.Restore env where_ w).1
          = (env.run (importArgv (resolvedPath env where_ w)) w).2) ∧
    (where_ = "" ∧ resolvedPath env "" w = "" →
      darwinStore.Restore env where_ w
        = (some "No backup file found and -file not specified", w)) ∧
    (resolvedPath env where_ w ≠ "" ∧ file.Exists w (resolvedPath env where_ w) = false →
      darwinStore.Restore env where_ w = (some "Restore file doesn't exist", w)) ∧
    ((∃ argv ∈ (darwinStore.Restore env where_ w).2.cmds.drop w.cmds.length,
        isImport argv = true) ↔
      (resolvedPath env where_ w ≠ "" ∧ file.Exists w (resolvedPath env where_ w) = true)) := by
  have hrun : ∀ p, resolvedPath env where_ w = p → p ≠ "" → file.Exists w p = true →
      darwinStore.Restore env where_ w
        = ((env.run (importArgv p) w).2,
            (execOutput env "/usr/bin/security" ["trust-settings-import", "-d", p] w).2) := by
    intro p hp hne hex
    simp only [resolvedPath] at hp
    simp [darwinStore.Restore, hp, hne, hex, execOutput, importArgv]
  have hmiss : ∀ p, resolvedPath env where_ w = p → p ≠ "" → file.Exists w p = false →
      darwinStore.Restore env where_ w = (some "Restore file doesn't exist", w) := by
    intro p hp hne hex
    simp only [resolvedPath] at hp
    simp [darwinStore.Restore, hp, hne, hex]
  have hnone : resolvedPath env where_ w = "" →
      darwinStore.Restore env where_ w
        = (some "No backup file found and -file not specified", w) := by
    intro hp
    simp only [resolvedPath] at hp
    simp [darwinStore.Restore, hp]
  refine ⟨?_, ?_, resolvedPath_no_snapshot env w, ?_, ?_, ?_, ?_⟩
  · intro hw
    simp [resolvedPath, hw]
  · intro home fis hh hd hne htot htr
    exact resolvedPath_most_recent env w home fis hh hd hne htot htr
  · rintro ⟨hne, hex⟩
    rw [hrun _ rfl hne hex]
    exact ⟨execOutput_cmds env _ _ w, rfl⟩
  · rintro ⟨hw, hl⟩
    subst hw
    exact hnone hl
  · rintro ⟨hne, hex⟩
    exact hmiss _ rfl hne hex
  · constructor
    · rintro ⟨argv, hmem, _⟩
      by_cases hne : resolvedPath env where_ w = ""
      · rw [hnone hne] at hmem
        simp at hmem
      · by_cases hex : file.Exists w (resolvedPath env where_ w) = true
        · exact ⟨hne, hex⟩
        · rw [hmiss _ rfl hne (by simpa using hex)] at hmem
          simp at hmem
    · rintro ⟨hne, hex⟩
      refine ⟨importArgv (resolvedPath env where_ w), ?_, by simp [importArgv, isImport]⟩
      rw [hrun _ rfl hne hex]
      simp [execOutput_cmds, importArgv]

/-- Witness of `C2_Restore_import_iff`: the snapshots with the timestamps 100,
200 and 150 are listed in that order; with an empty argument the resolved path
is the snapshot of timestamp 200, it is imported and becomes the live policy;
a path that does not exist is refused. -/
theorem C2_Restore_import_iff_witness :
    (∃ latest ∈ ["trust-backup-100.xml", "trust-backup-200.xml", "trust-backup-150.xml"],
      (∀ x ∈ ["trust-backup-100.xml", "trust-backup-200.xml", "trust-backup-150.xml"],
        snapshotTime x ≤ snapshotTime latest) ∧
      resolvedPath okEnv "" w0 = okEnv.join (backupDir okEnv "/Users/u") latest) ∧
    resolvedPath okEnv "" w0 = "/Users/u/Library/cert-manage/trust-backup-200.xml" ∧
    (darwinStore.Restore okEnv "" w0).2.cmds
        = [importArgv "/Users/u/Library/cert-manage/trust-backup-200.xml"] ∧
    (darwinStore.Restore okEnv "" w0).1 = none ∧
    (darwinStore.Restore okEnv "" w0).2.policy = "saved policy" ∧
    darwinStore.Restore okEnv "/no/such/file" w0 = (some "Restore file doesn't exist", w0) :=
  ⟨((C2_Restore_import_iff okEnv "" w0).2.1 "/Users/u"
      ["trust-backup-100.xml", "trust-backup-200.xml", "trust-backup-150.xml"] rfl rfl
      (by decide) (by decide) (by decide)).imp
      fun latest h => ⟨h.1, fun x hx => of_decide_eq_true (h.2.1 x hx), h.2.2⟩,
    by decide,
    ((C2_Restore_import_iff okEnv "" w0).2.2.2.1 (by decide)).1.trans (by decide),
    ((C2_Restore_import_iff okEnv "" w0).2.2.2.1 (by decide)).2.trans (by decide),
    by decide,
    (C2_Restore_import_iff okEnv "/no/such/file" w0).2.2.2.2.2.1 (by decide)⟩

/-- C10: for every store and every outcome of its `Backup`, `BackupForPlatform`
ends as `Backup` did (the same error or none, or the same panic), and the lines
printed are those printed by `Backup` followed by the one line
"Backup completed successfully" exactly when `Backup` returned no error; the
rest of the world is as `Backup` left it. `BackupForApp` does the same once
`store.ForApp` has returned a store and no error. -/
theorem C10_Backup_commands (s : Store) (w : World) (forApp : String → Option Store × Option Error)
    (app : String) (hstore : forApp app = (some s, none)) :
    (BackupForPlatform s w).value? = (s.Backup w).value? ∧
    (BackupForPlatform s w).world.stdout = (s.Backup w).world.stdout ++
      (if (s.Backup w).value? = some none then ["Backup completed successfully"] else []) ∧
    (BackupForPlatform s w).world.files = (s.Backup w).world.files ∧
    (BackupForPlatform s w).world.policy = (s.Backup w).world.policy ∧
    (BackupForPlatform s w).world.cmds = (s.Backup w).world.cmds ∧
    BackupForApp forApp app w = BackupForPlatform s w := by
  have happ : BackupForApp forApp app w = BackupForPlatform s w := by
    simp only [BackupForApp, hstore, BackupForPlatform]
  refine ⟨?_, ?_, ?_, ?_, ?_, happ⟩ <;>
    · unfold BackupForPlatform
      cases hb : s.Backup w with
      | panic w1 => simp [Outcome.value?, Outcome.world]
      | ret err w1 =>
        cases err with
        | none => simp [Outcome.value?, Outcome.world, Println]
        | some e => simp [Outcome.value?, Outcome.world]

/-- Witness of `C10_Backup_commands`: the darwin store succeeds and the line is
printed; a failing store prints nothing. -/
theorem C10_Backup_commands_witness :
    (BackupForApp (fun _ => (some (platform okEnv), none)) "firefox" w0).world.stdout
        = ["Backup completed successfully"] ∧
      (BackupForPlatform failingStore w0).world.stdout = [] ∧
      (BackupForPlatform failingStore w0).value? = some (some "disk full") :=
  ⟨by
      have h := C10_Backup_commands (platform okEnv) w0
        (fun _ => (some (platform okEnv), none)) "firefox" rfl
      rw [h.2.2.2.2.2, h.2.1]
      decide,
    by
      have h := C10_Backup_commands failingStore w0 (fun _ => (some failingStore, none)) "" rfl
      rw [h.2.1]
      decide,
    by
      have h := C10_Backup_commands failingStore w0 (fun _ => (some failingStore, none)) "" rfl
      rw [h.1]
      decide⟩

/-! ## List and Backup -/

theorem containsLoop_eq_any (fp : String) (t : trustItems) :
    containsLoop fp t = t.any (fun e => decide (e.sha1Fingerprint = fp)) := by
  induction t with
  | nil => rfl
  | cons e rest ih =>
    by_cases h : fp = e.sha1Fingerprint
    · simp [containsLoop, h]
    · have h' : ¬ e.sha1Fingerprint = fp := fun h2 => h h2.symm
      simp [containsLoop, h, h', ih]

theorem keptLoop_eq (t : trustItems) (l : List (Option Certificate)) :
    ∀ kept, keptLoop t l kept = kept ++ l.filter (inPolicy t) := by
  induction l with
  | nil => intro kept; simp [keptLoop]
  | cons c rest ih =>
    intro kept
    cases c with
    | none => simp [keptLoop, inPolicy, ih]
    | some x =>
      by_cases h : containsLoop (GetHexSHA1Fingerprint x) t = true
      · have h2 : inPolicy t (some x) = true := by
          rw [containsLoop_eq_any] at h
          simpa [inPolicy] using h
        simp [keptLoop, trustItems.contains, h, h2, ih]
      · have h2 : inPolicy t (some x) = false := by
          rw [containsLoop_eq_any] at h
          simpa [inPolicy] using h
        simp [keptLoop, trustItems.contains, h, h2, ih]

theorem trustSettingsExport_fd_of_err (env : Env) (args : List String) (w w1 : World)
    (fd : Option File) (e : Error)
    (h : trustSettingsExport env args w = ((fd, some e), w1)) : fd = none := by
  unfold trustSettingsExport at h
  split at h
  · simp only [Prod.mk.injEq] at h
    exact h.1.1.symm
  · dsimp only at h
    split at h
    · simp only [Prod.mk.injEq] at h
      exact h.1.1.symm
    · simp at h

/-- C3: for every installed-certificate dump `cs` and every decoded trust-entry
list `items`, when the dump, its parsing and the reading of the policy succeed,
`List` returns, with no error, exactly the certificates of the deduplicated
dump whose fingerprint is the fingerprint of some trust entry, in dump order,
and no absent certificate is among them. -/
theorem C3_List_keeps_policy_certs (env : Env) (w w1 w2 : World) (b : List Nat)
    (cs : List (Option Certificate)) (items : trustItems)
    (hdump : execOutput env "/usr/bin/security"
      (["find-certificate", "-a", "-p"] ++ systemDirs) w = ((b, none), w1))
    (hparse : env.pemParse b = (cs, none))
    (hpolicy : getCertsWithTrustPolicy env w1 = .ret (items, none) w2) :
    ∃ installed, dedupLoop cs [] = some installed ∧
      (darwinStore.List env w).value? = some (installed.filter (inPolicy items), none) ∧
      (installed.filter (inPolicy items)).Sublist cs ∧
      none ∉ installed.filter (inPolicy items) ∧
      ∀ c, some c ∈ installed.filter (inPolicy items) ↔
        some c ∈ installed ∧ ∃ e ∈ items, e.sha1Fingerprint = GetHexSHA1Fingerprint c := by
  have hded : dedupLoop cs [] = some (firstBySignature [] cs) := by
    simpa [sigsOf] using dedupLoop_eq cs [] (by simp)
  refine ⟨firstBySignature [] cs, hded, ?_, ?_, ?_, ?_⟩
  · have hread : readInstalledCerts env systemDirs w
        = .ret (firstBySignature [] cs, none) w1 := by
      simp only [readInstalledCerts, hdump, hparse, hded]
    simp only [darwinStore.List, hread, hpolicy, keptLoop_eq, List.nil_append]
    rfl
  · exact (List.filter_sublist _).trans (firstBySignature_sublist cs [])
  · intro hn
    have := (List.mem_filter.mp hn).2
    simp [inPolicy] at this
  · intro c
    simp [List.mem_filter, inPolicy]

/-- Witness of `C3_List_keeps_policy_certs`: of the three certificates dumped,
the one the policy lists is returned. -/
theorem C3_List_keeps_policy_certs_witness :
    (darwinStore.List okEnv w0).value? = some ([some abcCert], none) := by
  obtain ⟨installed, hi, hv, _⟩ := C3_List_keeps_policy_certs okEnv w0
    (execOutput okEnv "/usr/bin/security" (["find-certificate", "-a", "-p"] ++ systemDirs) w0).2
    (getCertsWithTrustPolicy okEnv (execOutput okEnv "/usr/bin/security"
      (["find-certificate", "-a", "-p"] ++ systemDirs) w0).2).world
    [] [some abcCert, none, some otherCert, some abcTwin] [lowerItem] rfl rfl (by decide)
  have hval : dedupLoop [some abcCert, none, some otherCert, some abcTwin] []
      = some [some abcCert, some otherCert] := by decide
  rw [hval] at hi
  cases hi
  rw [hv]
  decide

/-- A failure of the certificate dump, or of its parsing, is returned by `List`
with no certificates. -/
theorem List_returns_dump_failure (env : Env) (w w1 : World) (x : List (Option Certificate))
    (e : Error) (h : readInstalledCerts env systemDirs w = .ret (x, some e) w1) :
    darwinStore.List env w = .ret ([], some e) w1 := by
  simp only [darwinStore.List, h]

/-- A failure to decode the exported policy is returned by `List` with no
certificates. -/
theorem List_returns_decode_failure (env : Env) (w w1 w2 : World)
    (installed : List (Option Certificate)) (x : trustItems) (e : Error)
    (hdump : readInstalledCerts env systemDirs w = .ret (installed, none) w1)
    (h : getCertsWithTrustPolicy env w1 = .ret (x, some e) w2) :
    darwinStore.List env w = .ret ([], some e) w2 := by
  simp only [darwinStore.List, hdump, h]

/-- C4, at the failing input: when the certificate dump succeeds and the
trust-settings export fails (the temp file cannot be created, or the native
utility exits with an error), `List` does not return that failure: it panics,
because `fd.Name()` is evaluated on the nil file before the error is looked at. -/
theorem C4_List_panics_on_export_failure (env : Env) (w w1 w2 : World)
    (installed : List (Option Certificate)) (fd : Option File) (e : Error)
    (hdump : readInstalledCerts env systemDirs w = .ret (installed, none) w1)
    (hexport : trustSettingsExport env [] w1 = ((fd, some e), w2)) :
    darwinStore.List env w = .panic w2 := by
  have hfd := trustSettingsExport_fd_of_err env [] w1 w2 fd e hexport
  subst hfd
  simp only [darwinStore.List, hdump, getCertsWithTrustPolicy, hexport]

/-- Witness of `C4_List_panics_on_export_failure`: the native export exits with
an error and `List` returns nothing. -/
theorem C4_List_panics_on_export_failure_witness :
    (darwinStore.List exportFailEnv w0).value? = none := by
  rw [C4_List_panics_on_export_failure exportFailEnv w0
    (execOutput exportFailEnv "/usr/bin/security"
      (["find-certificate", "-a", "-p"] ++ systemDirs) w0).2
    (trustSettingsExport exportFailEnv []
      (execOutput exportFailEnv "/usr/bin/security"
        (["find-certificate", "-a", "-p"] ++ systemDirs) w0).2).2
    [some abcCert, some otherCert] none "exit status 1" (by decide) (by decide)]
  rfl

theorem lookup_filter_ne (n : String) (l : List (String × String)) :
    (l.filter (fun f => decide (f.1 ≠ n))).lookup n = none := by
  induction l with
  | nil => rfl
  | cons a l ih =>
    rw [List.filter_cons]
    split
    · rename_i h
      have hne : a.1 ≠ n := by simpa using h
      obtain ⟨k, v⟩ := a
      have hb : (n == k) = false := by
        simp only [beq_eq_false_iff_ne, ne_eq]
        exact fun h => hne h.symm
      rw [List.lookup_cons, hb]
      exact ih
    · exact ih

theorem isFile_remove (w : World) (n : String) : (w.remove n).isFile n = false := by
  have h := lookup_filter_ne n w.files
  simp only [World.isFile, World.read?, World.remove, h, Option.isSome_none]

theorem isFile_write (w : World) (n c : String) : (w.write n c).isFile n = true := by
  simp [World.isFile, World.read?, World.write, List.lookup]

/-- When the export succeeds, the temporary file is gone when `Backup` returns,
whatever the later steps did. -/
theorem Backup_removes_temp_file_after_export (env : Env) (w w1 : World) (fd : File)
    (err : Option Error) (h : trustSettingsExport env [] w = ((some fd, err), w1)) :
    ∃ r w', darwinStore.Backup env w = .ret r w' ∧ w'.isFile fd.name = false := by
  refine ⟨(backupBody env fd err w1).1, os.Remove fd.name (backupBody env fd err w1).2, ?_, ?_⟩
  · simp only [darwinStore.Backup, h]
  · exact isFile_remove _ _

/-- C5, at the failing input: when the temp file `n` is created and the native
trust-settings export then exits with an error, `Backup` panics and the temp
file still exists: `trustSettingsExport` returned a nil file, so nothing can
remove it, and `fd.Name()` on that nil file panics. -/
theorem C5_Backup_leaks_temp_file (env : Env) (w : World) (n : String) (e : Error)
    (htemp : env.tempName "" "trust-settings" w = .ok n)
    (hrun : (env.run ["/usr/bin/security", "trust-settings-export", "-s", n]
      (w.write n "")).2 = some e) :
    ∃ w', darwinStore.Backup env w = .panic w' ∧ w'.isFile n = true := by
  cases hr : env.run ["/usr/bin/security", "trust-settings-export", "-s", n] (w.write n "") with
  | mk out err =>
    rw [hr] at hrun
    simp only at hrun
    subst hrun
    refine ⟨{ w.write n "" with
      cmds := w.cmds ++ [["/usr/bin/security", "trust-settings-export", "-s", n]] }, ?_, ?_⟩
    · simp [darwinStore.Backup, trustSettingsExport, ioutil.TempFile, htemp, execOutput, hr]
      rfl
    · simp [World.isFile, World.read?, World.write, List.lookup]

/-- Witness of `C5_Backup_leaks_temp_file`: the native export exits with an
error; `Backup` returns nothing and leaves `/tmp/trust-settings1` behind. -/
theorem C5_Backup_leaks_temp_file_witness :
    (darwinStore.Backup exportFailEnv w0).value? = none ∧
      (darwinStore.Backup exportFailEnv w0).world.isFile "/tmp/trust-settings1" = true := by
  obtain ⟨w', hb, hf⟩ := C5_Backup_leaks_temp_file exportFailEnv w0 "/tmp/trust-settings1"
    "exit status 1" rfl (by decide)
  rw [hb]
  exact ⟨rfl, hf⟩

/-! ## Remove never imports -/

theorem NoImport.refl (w : World) : NoImport w w :=
  ⟨rfl, [], by simp, by simp⟩

theorem NoImport.trans {a b c : World} (h1 : NoImport a b) (h2 : NoImport b c) :
    NoImport a c := by
  obtain ⟨hp1, e1, hc1, hi1⟩ := h1
  obtain ⟨hp2, e2, hc2, hi2⟩ := h2
  refine ⟨hp2.trans hp1, e1 ++ e2, by rw [hc2, hc1, List.append_assoc], ?_⟩
  intro argv hm
  rcases List.mem_append.mp hm with h | h
  · exact hi1 argv h
  · exact hi2 argv h

theorem NoImport.of_same {w w' : World} (hp : w'.policy = w.policy) (hc : w'.cmds = w.cmds) :
    NoImport w w' :=
  ⟨hp, [], by simp [hc], by simp⟩

theorem nativeEffect_cmds (argv : List String) (w : World) :
    (nativeEffect argv w).cmds = w.cmds := by
  unfold nativeEffect
  split
  · rfl
  · split <;> rfl
  · rfl

theorem nativeEffect_policy (argv : List String) (w : World) (h : isImport argv = false) :
    (nativeEffect argv w).policy = w.policy := by
  unfold nativeEffect
  split
  · rfl
  · simp [isImport] at h
  · rfl

theorem execOutput_noImport (env : Env) (name : String) (args : List String) (w : World)
    (h : isImport (name :: args) = false) : NoImport w (execOutput env name args w).2 := by
  refine ⟨?_, [name :: args], execOutput_cmds env name args w, by simpa using h⟩
  unfold execOutput
  simp only
  split
  · rw [nativeEffect_policy _ _ h]
  · rfl

theorem trustSettingsExport_noImport (env : Env) (args : List String) (w : World) :
    NoImport w (trustSettingsExport env args w).2 := by
  unfold trustSettingsExport
  cases ht : env.tempName "" "trust-settings" w with
  | error e => simpa [ioutil.TempFile, ht] using NoImport.refl w
  | ok n =>
    have h1 : NoImport w (w.write n "") := NoImport.of_same rfl rfl
    have h2 := execOutput_noImport env "/usr/bin/security"
      (["trust-settings-export", "-s", n] ++ args) (w.write n "") (by simp [isImport])
    simp only [ioutil.TempFile, ht]
    rcases hx : execOutput env "/usr/bin/security"
      (["trust-settings-export", "-s", n] ++ args) (w.write n "") with ⟨⟨out, err⟩, w2⟩
    rw [hx] at h2
    cases err <;> exact h1.trans h2

theorem readInstalledCerts_noImport (env : Env) (paths : List String) (w : World) :
    NoImport w (readInstalledCerts env paths w).world := by
  have h := execOutput_noImport env "/usr/bin/security"
    (["find-certificate", "-a", "-p"] ++ paths) w (by simp [isImport])
  rcases hx : execOutput env "/usr/bin/security"
    (["find-certificate", "-a", "-p"] ++ paths) w with ⟨⟨out, err⟩, w1⟩
  rw [hx] at h
  cases err with
  | some e =>
    simp only [readInstalledCerts, hx, Outcome.world]
    exact h
  | none =>
    rcases hp : env.pemParse out with ⟨cs, perr⟩
    cases perr with
    | some e =>
      simp only [readInstalledCerts, hx, hp, Outcome.world]
      exact h
    | none =>
      cases hd : dedupLoop cs [] <;>
        · simp only [readInstalledCerts, hx, hp, hd, Outcome.world]
          exact h

theorem getCertsWithTrustPolicy_noImport (env : Env) (w : World) :
    NoImport w (getCertsWithTrustPolicy env w).world := by
  have h := trustSettingsExport_noImport env [] w
  unfold getCertsWithTrustPolicy
  rcases hx : trustSettingsExport env [] w with ⟨⟨fd, err⟩, w1⟩
  rw [hx] at h
  cases fd with
  | none => exact h
  | some f => exact h.trans (NoImport.of_same rfl rfl)

theorem List_noImport (env : Env) (w : World) :
    NoImport w (darwinStore.List env w).world := by
  have h1 := readInstalledCerts_noImport env systemDirs w
  unfold darwinStore.List
  cases hr : readInstalledCerts env systemDirs w with
  | panic w1 => rw [hr] at h1; exact h1
  | ret r w1 =>
    rw [hr] at h1
    obtain ⟨installed, err⟩ := r
    cases err with
    | some e => exact h1
    | none =>
      have h2 := getCertsWithTrustPolicy_noImport env w1
      simp only
      cases hg : getCertsWithTrustPolicy env w1 with
      | panic w2 => rw [hg] at h2; exact h1.trans h2
      | ret r2 w2 =>
        rw [hg] at h2
        obtain ⟨items, err2⟩ := r2
        cases err2 with
        | some e => exact h1.trans h2
        | none =>
          simp only
          cases env.debug
          · exact h1.trans h2
          · exact (h1.trans h2).trans (NoImport.of_same rfl rfl)

theorem List_no_nil (env : Env) (w w1 : World) (certs : List (Option Certificate))
    (h : darwinStore.List env w = .ret (certs, none) w1) : none ∉ certs := by
  unfold darwinStore.List at h
  cases hr : readInstalledCerts env systemDirs w with
  | panic w1 => rw [hr] at h; simp at h
  | ret r w1 =>
    obtain ⟨installed, err⟩ := r
    rw [hr] at h
    cases err with
    | some e => simp at h
    | none =>
      simp only at h
      cases hg : getCertsWithTrustPolicy env w1 with
      | panic w2 => rw [hg] at h; simp at h
      | ret r2 w2 =>
        obtain ⟨items, err2⟩ := r2
        rw [hg] at h
        cases err2 with
        | some e => simp at h
        | none =>
          simp only [Outcome.ret.injEq, Prod.mk.injEq, and_true] at h
          rw [← h.1, keptLoop_eq]
          intro hn
          have := (List.mem_filter.mp (by simpa using hn)).2
          simp [inPolicy] at this

theorem whitelistLoop_eq (wh : Whitelist) (l : List (Option Certificate)) :
    ∀ kept, whitelistLoop wh l kept = kept ++ l.filter wh.Matches := by
  induction l with
  | nil => intro kept; simp [whitelistLoop]
  | cons c rest ih =>
    intro kept
    by_cases h : wh.Matches c = true
    · simp [whitelistLoop, h, ih]
    · simp [whitelistLoop, h, ih]

theorem buildTrustItems_spec (env : Env) (kept : List (Option Certificate)) :
    ∀ (items : trustItems) (w : World), (∀ x ∈ kept, x ≠ none) →
      ∃ new, buildTrustItems env kept items w
          = (items ++ new, { w with clock := w.clock + kept.length }) ∧
        List.Forall₂ (builtFrom env) kept new := by
  induction kept with
  | nil => intro items w _; exact ⟨[], by simp [buildTrustItems], List.Forall₂.nil⟩
  | cons x rest ih =>
    intro items w hx
    cases x with
    | none => exact absurd rfl (hx none (List.mem_cons_self _ _))
    | some c =>
      obtain ⟨new, hnew, hall⟩ := ih (items ++ [trustItemFromCertificate (env.now w.clock) c])
        { w with clock := w.clock + 1 } (fun y hy => hx y (List.mem_cons_of_mem _ hy))
      refine ⟨trustItemFromCertificate (env.now w.clock) c :: new, ?_,
        List.Forall₂.cons ⟨c, w.clock, rfl, rfl, rfl, rfl, rfl⟩ hall⟩
      simp only [buildTrustItems, time.Now, hnew, List.append_assoc, List.singleton_append,
        List.length_cons, Prod.mk.injEq, true_and]
      congr 1
      omega

/-- However `Remove` ends, it never runs the native import, and the live trust
policy is the same after it as before it. -/
theorem Remove_noImport (env : Env) (wh : Whitelist) (w : World) :
    NoImport w (darwinStore.Remove env wh w).world := by
  have h1 := List_noImport env w
  unfold darwinStore.Remove
  cases hl : darwinStore.List env w with
  | panic w1 => rw [hl] at h1; exact h1
  | ret r w1 =>
    rw [hl] at h1
    obtain ⟨certs, err⟩ := r
    cases err with
    | some e => exact h1
    | none =>
      simp only
      obtain ⟨new, hnew, _⟩ := buildTrustItems_spec env (whitelistLoop wh certs []) [] w1
        (by
          intro x hx hn
          rw [whitelistLoop_eq] at hx
          subst hn
          exact List_no_nil env w w1 certs hl (List.mem_filter.mp (by simpa using hx)).1)
      rw [hnew]
      simp only [List.nil_append]
      have h2 : NoImport w { w1 with clock := w1.clock + (whitelistLoop wh certs []).length } :=
        h1.trans (NoImport.of_same rfl rfl)
      cases ht : env.tempName "" "cert-manage"
          { w1 with clock := w1.clock + (whitelistLoop wh certs []).length } with
      | error e => simpa [ioutil.TempFile, ht] using h2
      | ok f =>
        simp only [ioutil.TempFile, ht]
        cases trustItems.toPlist env.marshal new with
        | none => exact h2.trans (NoImport.of_same rfl rfl)
        | some p =>
          simp only [plist.toXmlFile]
          cases env.writeErr f
            ({ w1 with clock := w1.clock + (whitelistLoop wh certs []).length }.write f "") with
          | some e => exact h2.trans (NoImport.of_same rfl rfl)
          | none => exact h2.trans (NoImport.of_same rfl rfl)

/-- The data slice `toPlist` builds for a non-empty list of entries is never
the data of their encoding: its last element is nil. -/
theorem toPlist_data_ne_specData (marshal : pkix.Name → List Nat) (t : trustItems)
    (ht : t ≠ []) (data : List (Option chiData)) (hlen : data.length = t.length * 2)
    (hdata : ∀ j, j < t.length * 2 → data[j]? = some (dataAfter marshal t t.length j)) :
    data[t.length * 2 - 1]? = some none ∧ none ∉ specData marshal t ∧
      data ≠ specData marshal t := by
  have hpos : 0 < t.length := List.length_pos.mpr ht
  have hlast : data[t.length * 2 - 1]? = some none := by
    rw [hdata _ (by omega)]
    have h1 : ¬ t.length * 2 - 1 = 0 := by omega
    have h2 : ¬ t.length * 2 - 1 < t.length := by omega
    have h3 : ¬ ((t.length * 2 - 1) % 2 = 0 ∧ (t.length * 2 - 1) / 2 < t.length) := by omega
    simp only [dataAfter, h1, h2, h3, if_false]
  have hspec : none ∉ specData marshal t := by
    simp [specData, issuerOf, serialOf, List.mem_flatMap]
  refine ⟨hlast, hspec, ?_⟩
  intro heq
  rw [heq] at hlast
  exact hspec (List.getElem?_mem hlast)

/-- C9, at the failing input: for every whitelist that matches at least one
certificate `List` returns, when the temporary file is created and written,
`Remove` builds one trust entry from each matched certificate in list order
(its fingerprint, issuer and serial-number bytes), never runs the native
import, leaves the live policy alone and returns no error; but the file it
writes holds the document `toPlist` built, whose data slice has the serial
number of the first entry at index 0, nil at its last index, and is not the
data of the encoding of those entries. -/
theorem C9_Remove_writes_misplaced_data (env : Env) (wh : Whitelist) (w w1 : World)
    (certs : List (Option Certificate)) (f : String)
    (hlist : darwinStore.List env w = .ret (certs, none) w1)
    (hkept : certs.filter wh.Matches ≠ [])
    (htemp : env.tempName "" "cert-manage"
      (buildTrustItems env (certs.filter wh.Matches) [] w1).2 = .ok f)
    (hwrite : env.writeErr f
      ((buildTrustItems env (certs.filter wh.Matches) [] w1).2.write f "") = none) :
    ∃ items p data,
      List.Forall₂ (builtFrom env) (certs.filter wh.Matches) items ∧
      NoImport w (darwinStore.Remove env wh w).world ∧
      (darwinStore.Remove env wh w).value? = some none ∧
      trustItems.toPlist env.marshal items = some p ∧
      (darwinStore.Remove env wh w).world.read? f = some (env.toXml p) ∧
      p.trustKeys = some (items.map keyOf) ∧
      p.trustData = some data ∧
      data.length = items.length * 2 ∧
      (∀ j, j < items.length * 2 → data[j]? = some (dataAfter env.marshal items items.length j)) ∧
      data[0]? = some (items[0]?.bind serialOf) ∧
      data[items.length * 2 - 1]? = some none ∧
      data ≠ specData env.marshal items := by
  have hnil : ∀ x ∈ certs.filter wh.Matches, x ≠ none := by
    intro x hx hn
    subst hn
    exact List_no_nil env w w1 certs hlist (List.mem_filter.mp hx).1
  obtain ⟨new, hnew, hall⟩ := buildTrustItems_spec env (certs.filter wh.Matches) [] w1 hnil
  rw [List.nil_append] at hnew
  rw [hnew] at htemp hwrite
  simp only at htemp hwrite
  obtain ⟨p, data, hp, hk, _, hd, hlen, hlay⟩ := toPlist_layout env.marshal new
  have hne : new ≠ [] := by
    intro h
    subst h
    exact hkept (List.forall₂_nil_right_iff.mp hall)
  have hpos : 0 < new.length := List.length_pos.mpr hne
  obtain ⟨hlast, _, hneq⟩ := toPlist_data_ne_specData env.marshal new hne data hlen hlay
  have hrem : darwinStore.Remove env wh w = .ret none
      (Println f (({ w1 with clock := w1.clock + (certs.filter wh.Matches).length }.write f
        "").write f (env.toXml p))) := by
    simp only [darwinStore.Remove, hlist, whitelistLoop_eq, List.nil_append, hnew,
      ioutil.TempFile, htemp, hp, plist.toXmlFile, hwrite]
  refine ⟨new, p, data, hall, Remove_noImport env wh w, ?_, hp, ?_, hk, hd, hlen, hlay, ?_,
    hlast, hneq⟩
  · rw [hrem]
    rfl
  · rw [hrem]
    simp [Outcome.world, Println, World.read?, World.write, List.lookup]
  · rw [hlay 0 (by omega)]
    simp [dataAfter, hpos]

/-- Witness of `C9_Remove_writes_misplaced_data`: `List` returns one
certificate and the whitelist matches it; the file written has the serial
number where the issuer belongs and nil where the serial number belongs, and a
date in the local zone, while the encoding of the entry has the issuer `MAA=`
and then the serial number `AQ==`. -/
theorem C9_Remove_writes_misplaced_data_witness :
    (darwinStore.Remove okEnv serialOneWhitelist w0).value? = some none ∧
      (darwinStore.Remove okEnv serialOneWhitelist w0).world.policy = w0.policy ∧
      (darwinStore.Remove okEnv serialOneWhitelist w0).world.read? "/tmp/cert-manage1"
        = some ("<key>A9993E364706816ABA3E25717850C26C9CD0D89D</key>"
          ++ "<date>2018-03-02T15:13:20Z</date><data>AQ==</data><nil/>") ∧
      specData okEnv.marshal [trustItemFromCertificate ⟨1520000000, 3600⟩ abcCert]
        = [some ⟨"MAA="⟩, some ⟨"AQ=="⟩] := by
  obtain ⟨items, p, data, _, hni, hv, _⟩ := C9_Remove_writes_misplaced_data okEnv
    serialOneWhitelist w0 (darwinStore.List okEnv w0).world [some abcCert] "/tmp/cert-manage1"
    (by decide) (by decide) rfl rfl
  exact ⟨hv, hni.1, by decide, by decide⟩
